import Mathlib

/-!
Verification of `scraper.py` (docs-scraper repository).

The Python source is shallowly embedded below.  Pure functions of the source
(`norm_url`, `sha1`, `split_by_headings`, `approx_tokens`, `chunk_sections`,
`try_fetch_sitemap`, `extract_main_markdown`, the crawl loop of `main`) are
translated into executable Lean definitions.  External collaborators
(the HTTP client `httpx`, the HTML/XML parsers, `readability`, `markdownify`)
are modelled as oracle structures holding the values the library calls would
return; the repository's own logic is translated statement by statement.

Machine-level details follow CPython semantics: strings are sequences of
code points, `str.strip` / `str.splitlines` / `len` / `//` are reproduced,
`hashlib.sha1(...).hexdigest()` is implemented bit-for-bit on `Nat` with
explicit reduction modulo `2 ^ 32`.
-/

namespace Scraper

/-! ## Python string primitives -/

/-- Python's whitespace test for `str.strip` (ASCII whitespace; the inputs
handled by the scraper only contain these). -/
def isPySpace (c : Char) : Bool :=
  c == ' ' || c == '\t' || c == '\n' || c == '\r' || c == '\x0B' || c == '\x0C'

/-- `str.strip()` on a list of characters. -/
def stripList (l : List Char) : List Char :=
  ((l.dropWhile isPySpace).reverse.dropWhile isPySpace).reverse

/-- Python `s.strip()`. -/
def pyStrip (s : String) : String := ⟨stripList s.data⟩

/-- One line split step of `str.splitlines` (handles `\n`, `\r`, `\r\n`). -/
def splitlinesAux : List Char → List Char → List (List Char)
  | [], acc => [acc.reverse]
  | '\n' :: rest, acc => acc.reverse :: splitlinesAux rest []
  | '\r' :: '\n' :: rest, acc => acc.reverse :: splitlinesAux rest []
  | '\r' :: rest, acc => acc.reverse :: splitlinesAux rest []
  | c :: rest, acc => splitlinesAux rest (c :: acc)

/-- Python `s.splitlines()`: no trailing empty line, `[]` on `""`. -/
def pySplitlines (s : String) : List String :=
  match s.data with
  | [] => []
  | l =>
    let parts := splitlinesAux l []
    (match parts.getLast? with
     | some [] => parts.dropLast
     | _ => parts).map fun cs => ⟨cs⟩

/-- Python `sep.join(parts)`. -/
def pyJoin (sep : String) : List String → String
  | [] => ""
  | [x] => x
  | x :: xs => x ++ sep ++ pyJoin sep xs

/-! ## `sha1` (scraper.py line 47, via `hashlib`), implemented concretely -/

/-- UTF-8 encoding of a code-point sequence (Python `s.encode("utf-8")`). -/
def utf8Bytes : List Char → List Nat
  | [] => []
  | c :: cs =>
    let n := c.toNat
    (if n < 0x80 then [n]
     else if n < 0x800 then
       [0xC0 ||| (n >>> 6), 0x80 ||| (n &&& 0x3F)]
     else if n < 0x10000 then
       [0xE0 ||| (n >>> 12), 0x80 ||| ((n >>> 6) &&& 0x3F), 0x80 ||| (n &&& 0x3F)]
     else
       [0xF0 ||| (n >>> 18), 0x80 ||| ((n >>> 12) &&& 0x3F),
        0x80 ||| ((n >>> 6) &&& 0x3F), 0x80 ||| (n &&& 0x3F)]) ++ utf8Bytes cs

/-- 32-bit left rotation on `Nat`, reduced modulo `2 ^ 32`. -/
def rotl32 (n x : Nat) : Nat :=
  (((x % 2 ^ 32) <<< n) ||| ((x % 2 ^ 32) >>> (32 - n))) % 2 ^ 32

/-- SHA-1 message padding: `0x80`, zeros to 56 mod 64, 64-bit big-endian length. -/
def sha1Pad (msg : List Nat) : List Nat :=
  let L := msg.length
  let r := (L + 1) % 64
  let zeros := (56 + 64 - r) % 64
  let bits := 8 * L
  msg ++ [0x80] ++ List.replicate zeros 0 ++
    [(bits >>> 56) &&& 0xFF, (bits >>> 48) &&& 0xFF, (bits >>> 40) &&& 0xFF,
     (bits >>> 32) &&& 0xFF, (bits >>> 24) &&& 0xFF, (bits >>> 16) &&& 0xFF,
     (bits >>> 8) &&& 0xFF, bits &&& 0xFF]

/-- Split a byte list into 64-byte blocks (fuel-driven, fuel ≥ length). -/
def toBlocks : Nat → List Nat → List (List Nat)
  | 0, _ => []
  | _, [] => []
  | fuel + 1, l => l.take 64 :: toBlocks fuel (l.drop 64)

/-- Big-endian 32-bit words from bytes. -/
def bytesToWords : List Nat → List Nat
  | b0 :: b1 :: b2 :: b3 :: rest =>
    ((b0 <<< 24) ||| (b1 <<< 16) ||| (b2 <<< 8) ||| b3) :: bytesToWords rest
  | _ => []

/-- Extend the 16-word schedule by `n` further words. -/
def sha1Extend (w : List Nat) : Nat → List Nat
  | 0 => w
  | n + 1 =>
    let w' := sha1Extend w n
    let k := w'.length
    w' ++ [rotl32 1 ((w'.getD (k - 3) 0) ^^^ (w'.getD (k - 8) 0) ^^^
                     (w'.getD (k - 14) 0) ^^^ (w'.getD (k - 16) 0))]

/-- SHA-1 round function. -/
def sha1F (t b c d : Nat) : Nat :=
  if t < 20 then (b &&& c) ||| ((b ^^^ 0xFFFFFFFF) &&& d)
  else if t < 40 then b ^^^ c ^^^ d
  else if t < 60 then (b &&& c) ||| (b &&& d) ||| (c &&& d)
  else b ^^^ c ^^^ d

/-- SHA-1 round constant. -/
def sha1K (t : Nat) : Nat :=
  if t < 20 then 0x5A827999
  else if t < 40 then 0x6ED9EBA1
  else if t < 60 then 0x8F1BBCDC
  else 0xCA62C1D6

/-- The 80 SHA-1 rounds over the word schedule. -/
def sha1Rounds : Nat → List Nat → Nat → Nat → Nat → Nat → Nat →
    Nat × Nat × Nat × Nat × Nat
  | _, [], a, b, c, d, e => (a, b, c, d, e)
  | t, wt :: rest, a, b, c, d, e =>
    sha1Rounds (t + 1) rest
      ((rotl32 5 a + sha1F t b c d + e + sha1K t + wt) % 2 ^ 32)
      a (rotl32 30 b) c d

/-- Process one 64-byte block into the running state. -/
def sha1Block (h : Nat × Nat × Nat × Nat × Nat) (block : List Nat) :
    Nat × Nat × Nat × Nat × Nat :=
  let r := sha1Rounds 0 (sha1Extend (bytesToWords block) 64)
    h.1 h.2.1 h.2.2.1 h.2.2.2.1 h.2.2.2.2
  ((h.1 + r.1) % 2 ^ 32, (h.2.1 + r.2.1) % 2 ^ 32, (h.2.2.1 + r.2.2.1) % 2 ^ 32,
   (h.2.2.2.1 + r.2.2.2.1) % 2 ^ 32, (h.2.2.2.2 + r.2.2.2.2) % 2 ^ 32)

/-- Hex digit character (lowercase, as `hexdigest`). -/
def hexDigit (n : Nat) : Char :=
  if n < 10 then Char.ofNat ('0'.toNat + n) else Char.ofNat ('a'.toNat + (n - 10))

/-- Eight lowercase hex digits of a 32-bit word. -/
def wordHex (w : Nat) : List Char :=
  [hexDigit ((w >>> 28) &&& 15), hexDigit ((w >>> 24) &&& 15),
   hexDigit ((w >>> 20) &&& 15), hexDigit ((w >>> 16) &&& 15),
   hexDigit ((w >>> 12) &&& 15), hexDigit ((w >>> 8) &&& 15),
   hexDigit ((w >>> 4) &&& 15), hexDigit (w &&& 15)]

/-- `sha1(s)` of scraper.py line 47: `hashlib.sha1(s.encode("utf-8")).hexdigest()`. -/
def sha1 (s : String) : String :=
  let msg := sha1Pad (utf8Bytes s.data)
  let final := (toBlocks msg.length msg).foldl sha1Block
    (0x67452301, 0xEFCDAB89, 0x98BADCFE, 0x10325476, 0xC3D2E1F0)
  ⟨wordHex final.1 ++ wordHex final.2.1 ++ wordHex final.2.2.1 ++
   wordHex final.2.2.2.1 ++ wordHex final.2.2.2.2⟩

/-! ## `approx_tokens` (line 156) and `chunk_sections` (line 161) -/

/-- `approx_tokens(s) = max(1, len(s) // 4)` (line 156). -/
def approx_tokens (s : String) : Nat := max 1 (s.length / 4)

/-- The `Chunk` dataclass (line 18); the metadata dict is flattened into
its four fixed keys. -/
structure Chunk where
  chunk_id : String
  text : String
  source : String
  url : String
  title : String
  section_path : String
  deriving Repr, DecidableEq, Inhabited

/-- The nested `flush` of `chunk_sections` (line 173): strip the buffer, and
if non-empty append a `Chunk` whose id is `sha1(url + "\n" + text)[:16]` and
whose `section_path` joins the non-empty path parts with `" > "`. -/
def flushChunk (url title source : String) (chunks : List Chunk)
    (buf_text : String) (section_path : List String) : List Chunk :=
  let t := pyStrip buf_text
  if t = "" then chunks
  else
    chunks ++ [⟨(sha1 (url ++ "\n" ++ t)).take 16, t, source, url, title,
               pyJoin " > " (section_path.filter fun p => p ≠ "")⟩]

/-- The loop body of `chunk_sections` (lines 191-219), recursing over the
section list with the `buf`/`buf_path`/`chunks` state. -/
def chunkGo (url title source : String) (min_tok max_tok : Nat) :
    List (String × String) → String → List String → List Chunk → List Chunk
  | [], buf, buf_path, chunks =>
    if buf ≠ "" then flushChunk url title source chunks buf buf_path else chunks
  | (heading, sec) :: rest, buf, buf_path, chunks =>
    let section_path := (if title ≠ "" then [title] else []) ++
                        (if heading ≠ "" then [heading] else [])
    if buf = "" then
      chunkGo url title source min_tok max_tok rest sec section_path chunks
    else
      let st :=
        if approx_tokens buf + approx_tokens sec > max_tok then
          (sec, section_path, flushChunk url title source chunks buf buf_path)
        else
          (pyStrip (buf ++ "\n\n" ++ sec),
           if buf_path ≠ [] then buf_path else section_path, chunks)
      if approx_tokens st.1 ≥ min_tok then
        chunkGo url title source min_tok max_tok rest "" []
          (flushChunk url title source st.2.2 st.1 st.2.1)
      else
        chunkGo url title source min_tok max_tok rest st.1 st.2.1 st.2.2

/-- `chunk_sections` (line 161). -/
def chunk_sections (sections : List (String × String)) (url title source : String)
    (min_tok max_tok : Nat) : List Chunk :=
  chunkGo url title source min_tok max_tok sections "" [] []

/-! ## URL model: CPython `urllib.parse` as used by `norm_url` (line 25),
`same_scope` (line 31) and `keep_url` (line 37).

The model reproduces `urlsplit` / `urlunsplit` / the params split of
`urlparse` / `urlunparse` of contemporary CPython: input sanitisation
(lstrip of C0-control-or-space, removal of tab/CR/LF), scheme detection and
lowercasing, netloc splitting with the bracket-mismatch `ValueError`
(modelled as `none`; the stricter bracketed-host validation of newest
CPython only shrinks the domain further and never changes a successful
parse), fragment then query splitting, and the `;`-params split relative to
the last path segment. -/

/-- `l₁` is a prefix of `l₂` (executable). -/
def prefixOfL : List Char → List Char → Bool
  | [], _ => true
  | _ :: _, [] => false
  | a :: as, b :: bs => a == b && prefixOfL as bs

/-- `needle in hay` for Python strings (contiguous substring). -/
def infixOfL (needle : List Char) : List Char → Bool
  | [] => prefixOfL needle []
  | hay@(_ :: tl) => prefixOfL needle hay || infixOfL needle tl

/-- Characters allowed in a URL scheme (`scheme_chars`). -/
def isSchemeChar (c : Char) : Bool :=
  c.isAlpha || c.isDigit || c == '+' || c == '-' || c == '.'

/-- ASCII lowercasing of one character. -/
def charLower (c : Char) : Char :=
  if 'A' ≤ c ∧ c ≤ 'Z' then Char.ofNat (c.toNat + 32) else c

/-- `urlsplit` input sanitisation: lstrip WHATWG C0-control-or-space, then
remove every tab/CR/LF. -/
def sanitizeUrl (l : List Char) : List Char :=
  (l.dropWhile fun c => c.toNat ≤ 32).filter
    fun c => !(c == '\t' || c == '\r' || c == '\n')

/-- Scheme detection of `urlsplit`: a first colon at position `i > 0`, an
ASCII-alphabetic first character and only scheme characters before the
colon give `(lowercased scheme, remainder)`. -/
def splitScheme (l : List Char) : Option (List Char × List Char) :=
  let pre := l.takeWhile fun c => c != ':'
  match l with
  | [] => none
  | c0 :: _ =>
    if pre.length < l.length ∧ 0 < pre.length ∧ c0.isAlpha ∧ pre.all isSchemeChar
    then some (pre.map charLower, l.drop (pre.length + 1))
    else none

/-- Netloc delimiters of `_splitnetloc`. -/
def nlDelim (c : Char) : Bool := c == '/' || c == '?' || c == '#'

/-- Netloc extraction: after a leading `//`, the netloc runs to the first
`/`, `?` or `#`; a bracket mismatch raises `ValueError` (`none`). -/
def splitNetloc (l : List Char) : Option (List Char × List Char) :=
  match l with
  | '/' :: '/' :: tl =>
    let nl := tl.takeWhile fun c => !nlDelim c
    if (nl.contains '[') ≠ (nl.contains ']') then none
    else some (nl, tl.dropWhile fun c => !nlDelim c)
  | _ => some ([], l)

/-- `url.split(c, 1)` when `c` occurs, else `(url, "")`. -/
def splitOnce (l : List Char) (c : Char) : List Char × List Char :=
  (l.takeWhile (fun x => x != c), (l.dropWhile (fun x => x != c)).drop 1)

/-- The five components of `urlsplit`. -/
structure SplitL where
  scheme : List Char
  netloc : List Char
  path : List Char
  query : List Char
  fragment : List Char
  deriving DecidableEq, Repr

/-- `urllib.parse.urlsplit` (fragment split before query split). -/
def urlsplitL (input : List Char) : Option SplitL :=
  let l0 := sanitizeUrl input
  let sl := match splitScheme l0 with
    | some p => p
    | none => (([] : List Char), l0)
  match splitNetloc sl.2 with
  | none => none
  | some nl =>
    let fq := splitOnce nl.2 '#'
    let pq := splitOnce fq.1 '?'
    some ⟨sl.1, nl.1, pq.1, pq.2, fq.2⟩

/-- `uses_netloc` of `urllib.parse`. -/
def uses_netloc : List (List Char) :=
  ["", "ftp", "http", "gopher", "nntp", "telnet", "imap", "wais", "file",
   "mms", "https", "shttp", "snews", "prospero", "rtsp", "rtsps", "rtspu",
   "rsync", "svn", "svn+ssh", "sftp", "nfs", "git", "git+ssh", "ws",
   "wss"].map String.data

/-- `uses_params` of `urllib.parse`. -/
def uses_params : List (List Char) :=
  ["", "ftp", "hdl", "prospero", "http", "imap", "https", "shttp", "rtsp",
   "rtsps", "rtspu", "sip", "sips", "mms", "sftp", "tel"].map String.data

/-- `uses_relative` of `urllib.parse`. -/
def uses_relative : List (List Char) :=
  ["", "ftp", "http", "gopher", "nntp", "imap", "wais", "file", "https",
   "shttp", "mms", "prospero", "rtsp", "rtsps", "rtspu", "sftp", "svn",
   "svn+ssh", "ws", "wss"].map String.data

/-- `_splitparams`: the first `;` of the last path segment separates path
from params (only called when the path contains a `;`). -/
def pySplitparams (p : List Char) : List Char × List Char :=
  if p.contains '/' then
    let after := (p.reverse.takeWhile fun c => c != '/').reverse
    if after.contains ';' then
      (p.take (p.length - after.length) ++ after.takeWhile (fun c => c != ';'),
       (after.dropWhile (fun c => c != ';')).drop 1)
    else (p, [])
  else (p.takeWhile (fun c => c != ';'), (p.dropWhile (fun c => c != ';')).drop 1)

/-- The path/params fields of `urlparse` applied to a split result:
`_splitparams` runs only for a scheme in `uses_params` with a `;` in the
path. -/
def urlparseParams (r : SplitL) : List Char × List Char :=
  if uses_params.contains r.scheme ∧ r.path.contains ';' then pySplitparams r.path
  else (r.path, [])

/-- The params rejoin of `urlunparse`. -/
def pyJoinparams (path params : List Char) : List Char :=
  if params ≠ [] then path ++ ';' :: params else path

/-- `urllib.parse.urlunsplit` (CPython 3.11). -/
def urlunsplitL (scheme netloc url query fragment : List Char) : List Char :=
  let url := if netloc ≠ [] ∨
      (scheme ≠ [] ∧ uses_netloc.contains scheme ∧ url.take 2 ≠ ['/', '/']) then
      ('/' :: '/' :: netloc) ++ (if url ≠ [] ∧ url.take 1 ≠ ['/'] then '/' :: url else url)
    else url
  let url := if scheme ≠ [] then scheme ++ ':' :: url else url
  let url := if query ≠ [] then url ++ '?' :: query else url
  if fragment ≠ [] then url ++ '#' :: fragment else url

/-- `norm_url` (line 25): parse, clear the fragment, reassemble
(`urlparse(u)._replace(fragment="").geturl()`); `none` is the
`ValueError` of an unparseable URL. -/
def norm_url (u : String) : Option String :=
  (urlsplitL u.data).map fun r =>
    let pp := urlparseParams r
    ⟨urlunsplitL r.scheme r.netloc (pyJoinparams pp.1 pp.2) r.query []⟩

/-- `same_scope` (line 31): scheme and netloc of both URLs coincide.
An unparseable URL raises in Python (aborting the run); the model returns
`false` there. -/
def same_scope (url base : String) : Bool :=
  match urlsplitL url.data, urlsplitL base.data with
  | some u, some b => u.scheme == b.scheme && u.netloc == b.netloc
  | _, _ => false

/-- `keep_url` (line 37): reject paths containing `Special:` or starting
with `/extensions/` (the path as `urlparse` reports it, params split off). -/
def keep_url (u : String) : Bool :=
  match urlsplitL u.data with
  | none => false
  | some r =>
    let path := (urlparseParams r).1
    !(infixOfL "Special:".data path) && !(prefixOfL "/extensions/".data path)

/-- `urljoin(base, ref)` of `urllib.parse`, for the root-absolute,
dot-segment-free references the scraper joins (`/sitemap.xml`,
`/sitemap_index.xml`): the reference has no scheme, netloc, params, query
or fragment of its own, starts with `/` and has no `.`/`..` segments, so
`urljoin` keeps the base's scheme (and netloc for `uses_netloc` schemes)
and takes the reference as the whole path.  An unparseable base raises in
Python, aborting the run; the model returns the reference there. -/
def urljoinRoot (base : String) (relpath : String) : String :=
  if base = "" then relpath
  else
    match urlsplitL base.data with
    | none => relpath
    | some b =>
      if ¬ uses_relative.contains b.scheme then relpath
      else
        let netloc := if uses_netloc.contains b.scheme then b.netloc else []
        ⟨urlunsplitL b.scheme netloc relpath.data [] []⟩

/-! ## `split_by_headings` (line 122) -/

/-- The heading regular expression of line 132, `^(#{1,6})\s+(.*)\s*$`,
applied with `re.match`: one to six `#`, at least one whitespace character,
then the rest; the returned heading is `group(2).strip()` (equivalently the
stripped remainder after the `#` run).  With more than six leading `#` no
split of the quantifier leaves a whitespace character after it, so the
match fails. -/
def headingMatch (line : List Char) : Option (List Char) :=
  let hashes := line.takeWhile fun c => c == '#'
  let rest := line.drop hashes.length
  if 1 ≤ hashes.length ∧ hashes.length ≤ 6 ∧ rest.takeWhile isPySpace ≠ [] then
    some (stripList (rest.dropWhile isPySpace))
  else none

/-- The line loop of `split_by_headings` (lines 134-146), carrying
`current_heading`, `current` and `sections`. -/
def splitGo : List String → String → List String → List (String × List String) →
    List (String × List String)
  | [], cur_h, cur, secs => if cur ≠ [] then secs ++ [(cur_h, cur)] else secs
  | line :: rest, cur_h, cur, secs =>
    match headingMatch line.data with
    | some h => splitGo rest ⟨h⟩ [line] (if cur ≠ [] then secs ++ [(cur_h, cur)] else secs)
    | none => splitGo rest cur_h (cur ++ [line]) secs

/-- `split_by_headings` (line 122): loop over the lines, then keep the
sections whose joined text is non-empty after stripping. -/
def split_by_headings (markdown : String) : List (String × String) :=
  (splitGo (pySplitlines markdown) "" [] []).filterMap fun s =>
    let text := pyStrip (pyJoin "\n" s.2)
    if text ≠ "" then some (s.1, text) else none

/-! ## `try_fetch_sitemap` (line 51)

`httpx` and the XML parse are external collaborators: a response is
modelled by its status, its `content-type` header and the
`BeautifulSoup(r.text, "xml")` view, namely the stripped text of the
`<loc>` elements in document order and the truthiness of
`soup.find("sitemapindex")` / `soup.find("urlset")`. -/

/-- The parsed-XML view of a response body. -/
structure XmlDoc where
  locs : List String
  isIndex : Bool
  isUrlset : Bool
  deriving Repr, DecidableEq

/-- A fetched response as `try_fetch_sitemap` inspects it. -/
structure HttpResp where
  status : Nat
  contentType : String
  doc : XmlDoc
  deriving Repr, DecidableEq

/-- Code-point lexicographic comparison (Python's `<` on strings). -/
def lexLt : List Char → List Char → Bool
  | [], [] => false
  | [], _ :: _ => true
  | _ :: _, [] => false
  | a :: as, b :: bs =>
    if a.toNat < b.toNat then true
    else if b.toNat < a.toNat then false
    else lexLt as bs

/-- Python `a < b` on strings, executable. -/
def strLtB (a b : String) : Bool := lexLt a.data b.data

/-- Insert into a strictly sorted list, dropping duplicates. -/
def insortDedup (x : String) : List String → List String
  | [] => [x]
  | y :: ys =>
    if x == y then y :: ys
    else if strLtB x y then x :: y :: ys
    else y :: insortDedup x ys

/-- Python `sorted(set(l))` for strings (code-point lexicographic order). -/
def sortedDedup (l : List String) : List String :=
  l.foldl (fun acc x => insortDedup x acc) []

/-- The child-sitemap loop of lines 71-75: fetch every child, keep the
`<loc>` entries of those answering 200 (note: no content-type check for
children). -/
def childLocs (fetch : String → HttpResp) : List String → List String
  | [] => []
  | child :: rest =>
    (if (fetch child).status = 200 then (fetch child).doc.locs else []) ++
      childLocs fetch rest

/-- The candidate loop of lines 61-82. -/
def tryCandidates (fetch : String → HttpResp) : List String → List String
  | [] => []
  | sm :: rest =>
    let r := fetch sm
    if r.status ≠ 200 ∨ ¬ infixOfL "xml".data r.contentType.data then
      tryCandidates fetch rest
    else if r.doc.isIndex then sortedDedup (childLocs fetch r.doc.locs)
    else if r.doc.isUrlset then sortedDedup r.doc.locs
    else tryCandidates fetch rest

/-- `try_fetch_sitemap` (line 51): try `/sitemap.xml` then
`/sitemap_index.xml` at the base origin. -/
def try_fetch_sitemap (fetch : String → HttpResp) (base : String) : List String :=
  tryCandidates fetch [urljoinRoot base "/sitemap.xml", urljoinRoot base "/sitemap_index.xml"]

/-! ## `extract_main_markdown` (line 85)

`readability`, `BeautifulSoup` and `markdownify` are external
collaborators: an HTML string is modelled by the values their calls
return — the readability title, the markdownified readability summary
(scripts/styles/noscript already dropped), and the markdownified text of
each fallback container when the selector finds one (scripts/styles/
noscript/svg already dropped).  The repository's own logic — the blank-line
collapse, the stripping, the 200-character fallback dispatch and the
fallback priority order — is embedded directly. -/

/-- The page as the external libraries report it. -/
structure HtmlPage where
  shortTitle : String
  heuristicMd : String
  mwContentText : Option String
  mwParserOutput : Option String
  mainEl : Option String
  bodyEl : Option String
  deriving Repr, DecidableEq

/-- One pass of `re.sub(r"\n{3,}", "\n\n", s)`: every maximal run of three
or more newlines becomes exactly two (fuel-driven, fuel ≥ length). -/
def collapseGo : Nat → List Char → List Char
  | 0, l => l
  | _ + 1, [] => []
  | fuel + 1, c :: rest =>
    if c = '\n' then
      let run := 1 + (rest.takeWhile fun x => x == '\n').length
      (if 3 ≤ run then ['\n', '\n'] else List.replicate run '\n') ++
        collapseGo fuel (rest.dropWhile fun x => x == '\n')
    else c :: collapseGo fuel rest

/-- `re.sub(r"\n{3,}", "\n\n", s)` (lines 102 and 118). -/
def collapseNl (s : String) : String := ⟨collapseGo s.data.length s.data⟩

/-- `extract_main_markdown` (line 85): title from readability (stripped,
never re-derived); body from the heuristic extraction, re-derived from the
first available of `#mw-content-text`, `.mw-parser-output`, `main`, `body`
exactly when the heuristic text is shorter than 200 characters; blank-line
collapse and strip applied again at the end. -/
def extract_main_markdown (page : HtmlPage) : String × String :=
  let title := pyStrip page.shortTitle
  let markdown := pyStrip (collapseNl page.heuristicMd)
  let markdown :=
    if markdown.length < 200 then
      match page.mwContentText <|> page.mwParserOutput <|> page.mainEl <|> page.bodyEl with
      | some m => pyStrip m
      | none => markdown
    else markdown
  (title, pyStrip (collapseNl markdown))

/-! ## The crawl driver (`main`, lines 288-360)

The HTTP client and the HTML parses are an oracle `CrawlEnv`: `fetch`
returns either a response (`ok = true`) or models the `except Exception`
of line 315 (`ok = false`); `hrefs` lists the `href` attributes of the
`a[href]` elements of a body; `urljoin` is `urllib.parse.urljoin` for
arbitrary references; `page` is the external-library view consumed by
`extract_main_markdown`; `xml` the parsed-XML view used by the sitemap
probe.  The trace records, in order, every `client.get` of the loop and
every `time.sleep(delay)`. -/

/-- A response of `client.get` in the crawl loop. -/
structure FetchResult where
  ok : Bool
  status : Nat
  contentType : String
  body : String
  deriving Repr

/-- The external collaborators of the crawl loop. -/
structure CrawlEnv where
  fetch : String → FetchResult
  xml : String → XmlDoc
  hrefs : String → List String
  urljoin : String → String → String
  page : String → HtmlPage

/-- Loop events: a fetch attempt, or one `time.sleep(delay)`. -/
inductive CrawlEvent where
  | fetchEv (url : String)
  | sleepEv
  deriving Repr, DecidableEq

/-- Totalised `norm_url` for the loop model.  `norm_url` fails only on a
bracket-mismatch netloc, where the Python program would abort with an
uncaught `ValueError`; the model keeps such a URL unchanged instead. -/
def normD (u : String) : String := (norm_url u).getD u

/-- `is_html_response` (line 238). -/
def is_html_response (r : FetchResult) : Bool :=
  infixOfL "text/html".data r.contentType.data ||
    infixOfL "application/xhtml+xml".data r.contentType.data

/-- `extract_links` (line 226): every `href` of an `a[href]` element,
skipped when falsy, joined against the page URL and normalized. -/
def extract_links (env : CrawlEnv) (html base_url : String) : List String :=
  (env.hrefs html).filterMap fun href =>
    if href = "" then none else some (normD (env.urljoin base_url href))

/-- The link-enqueue step of lines 329-333: append every in-scope, allowed,
unvisited link, then truncate the queue to the page cap. -/
def enqueue_links (base : String) (queue seen : List String) (links : List String)
    (max_pages : Nat) : List String :=
  let q := queue ++ links.filter fun link =>
    same_scope link base && keep_url link && !(seen.contains link)
  if q.length > max_pages then q.take max_pages else q

/-- The mutable loop state of `main`. -/
structure CrawlState where
  queue : List String
  i : Nat
  seen : List String
  trace : List CrawlEvent
  written : List Chunk
  deriving Repr

/-- The `while` loop of lines 305-358.  One fuel unit per iteration; `i`
grows by one each iteration and the loop requires `i < max_pages`, so
`max_pages` fuel is exact. -/
def crawlLoop (env : CrawlEnv) (base : String) (useSeed : Bool)
    (max_pages min_tok max_tok : Nat) : Nat → CrawlState → CrawlState
  | 0, st => st
  | fuel + 1, st =>
    if st.i < st.queue.length ∧ st.i < max_pages then
      let url := normD (st.queue.getD st.i "")
      let st1 := { st with i := st.i + 1 }
      if st1.seen.contains url then
        crawlLoop env base useSeed max_pages min_tok max_tok fuel st1
      else
        let st2 := { st1 with seen := url :: st1.seen }
        let r := env.fetch url
        let st3 := { st2 with trace := st2.trace ++ [CrawlEvent.fetchEv url] }
        if !r.ok then
          crawlLoop env base useSeed max_pages min_tok max_tok fuel st3
        else if r.status ≠ 200 ∨ ¬ is_html_response r then
          crawlLoop env base useSeed max_pages min_tok max_tok fuel
            { st3 with trace := st3.trace ++ [CrawlEvent.sleepEv] }
        else
          let st4 := if useSeed then
              { st3 with queue :=
                  enqueue_links base st3.queue st3.seen (extract_links env r.body url) max_pages }
            else st3
          let tm := extract_main_markdown (env.page r.body)
          if tm.2 = "" ∨ tm.2.length < 200 then
            crawlLoop env base useSeed max_pages min_tok max_tok fuel
              { st4 with trace := st4.trace ++ [CrawlEvent.sleepEv] }
          else
            crawlLoop env base useSeed max_pages min_tok max_tok fuel
              { st4 with
                written := st4.written ++ chunk_sections (split_by_headings tm.2)
                  url tm.1 "GenesysCloud" min_tok max_tok,
                trace := st4.trace ++ [CrawlEvent.sleepEv] }
    else st

/-- `main` (lines 288-360): probe the sitemap, build the initial frontier,
then run the loop.  `base` is `norm_url(args.base)` as on line 277. -/
def crawlMain (env : CrawlEnv) (base0 : String) (max_pages min_tok max_tok : Nat) :
    CrawlState :=
  let base := normD base0
  let sitemapFetch := fun u =>
    let fr := env.fetch u
    ({ status := fr.status, contentType := fr.contentType, doc := env.xml fr.body } : HttpResp)
  let sm := try_fetch_sitemap sitemapFetch base
  let queue := if sm ≠ [] then sm.filter (fun u => same_scope u base && keep_url u)
               else [base]
  crawlLoop env base (sm = []) max_pages min_tok max_tok max_pages
    { queue := queue, i := 0, seen := [], trace := [], written := [] }

/-- The URLs of the fetch attempts of a trace, in order. -/
def fetchedUrls (tr : List CrawlEvent) : List String :=
  tr.filterMap fun e => match e with | CrawlEvent.fetchEv u => some u | _ => none

/-- The delay discipline the loop actually implements: a sleep appears
exactly after each answered fetch; an unanswered fetch (transport failure)
is followed by no sleep; no sleep occurs anywhere else (in particular not
before the first fetch). -/
def delayPattern (env : CrawlEnv) : List CrawlEvent → Bool
  | [] => true
  | [CrawlEvent.fetchEv u] => !(env.fetch u).ok
  | CrawlEvent.fetchEv u :: CrawlEvent.sleepEv :: rest =>
    (env.fetch u).ok && delayPattern env rest
  | CrawlEvent.fetchEv u :: CrawlEvent.fetchEv v :: rest =>
    !(env.fetch u).ok && delayPattern env (CrawlEvent.fetchEv v :: rest)
  | CrawlEvent.sleepEv :: _ => false

/-! ## Specification-side reference definitions

These re-state, in the spec's own words, the algorithms whose claims are
refinement statements; each is compared with the source-derived definition
by a theorem below. -/

/-- The section path the Chunker attaches: `[title?, heading?]` with empty
parts omitted. -/
def sectionPathOf (title heading : String) : List String :=
  (if title ≠ "" then [title] else []) ++ (if heading ≠ "" then [heading] else [])

/-- One step of the spec's greedy accumulation (claim C1): seed an empty
buffer and move on; otherwise flush-then-seed when the budget would be
exceeded, else append keeping the first non-empty path; after an
accumulation step flush once the buffer reaches `min_tok`. -/
def chunkSpecStep (url title source : String) (min_tok max_tok : Nat)
    (st : String × List String × List Chunk) (sec : String × String) :
    String × List String × List Chunk :=
  let path := sectionPathOf title sec.1
  if st.1 = "" then (sec.2, path, st.2.2)
  else
    let acc :=
      if approx_tokens st.1 + approx_tokens sec.2 > max_tok then
        (sec.2, path, flushChunk url title source st.2.2 st.1 st.2.1)
      else
        (pyStrip (st.1 ++ "\n\n" ++ sec.2),
         if st.2.1 ≠ [] then st.2.1 else path, st.2.2)
    if min_tok ≤ approx_tokens acc.1 then
      ("", [], flushChunk url title source acc.2.2 acc.1 acc.2.1)
    else acc

/-- The spec's chunker (claim C1): fold the step over the sections, then
flush any remaining non-empty buffer. -/
def chunkSpec (sections : List (String × String)) (url title source : String)
    (min_tok max_tok : Nat) : List Chunk :=
  let fin := sections.foldl (chunkSpecStep url title source min_tok max_tok) ("", [], [])
  if fin.1 ≠ "" then flushChunk url title source fin.2.2 fin.1 fin.2.1 else fin.2.2

/-- The heading text of a line (empty for a non-heading line). -/
def headingOf (line : String) : String := ⟨(headingMatch line.data).getD []⟩

/-- A line that does not match the heading pattern. -/
def notHeading (line : String) : Bool := (headingMatch line.data).isNone

/-- The spec's section grouping (claim C3): each heading line starts a group
holding the heading line itself and every following line up to (not
including) the next heading line (fuel-driven, fuel ≥ length). -/
def specGroupsF : Nat → List String → List (String × List String)
  | 0, _ => []
  | _ + 1, [] => []
  | fuel + 1, hline :: tl =>
    (headingOf hline, hline :: tl.takeWhile notHeading) ::
      specGroupsF fuel (tl.dropWhile notHeading)

/-- The spec's section splitter (claim C3): lines before the first heading
form a preface group with empty heading; each heading line starts a group;
a group's text is its lines joined back and trimmed; groups whose text is
then empty are dropped; order is document order. -/
def specSections (md : String) : List (String × String) :=
  let lines := pySplitlines md
  let pre := lines.takeWhile notHeading
  let groups := (if pre ≠ [] then [(("" : String), pre)] else []) ++
    specGroupsF lines.length (lines.dropWhile notHeading)
  groups.filterMap fun g =>
    let text := pyStrip (pyJoin "\n" g.2)
    if text ≠ "" then some (g.1, text) else none

/-! ## Fixtures for the concrete parts of the claims -/

/-- A section text that is non-empty and already stripped. -/
def Clean (s : String) : Prop := pyStrip s = s ∧ s ≠ ""

/-- The chunker's buffer after appending each further section. -/
def joinAcc (buf : String) (l : List String) : String :=
  l.foldl (fun b sec => b ++ "\n\n" ++ sec) buf

/-- C1 fixture: section of 400 characters (100 tokens). -/
def c1s1 : String := ⟨List.replicate 400 'a'⟩

/-- C1 fixture: section of 1600 characters (400 tokens). -/
def c1s2 : String := ⟨List.replicate 1600 'b'⟩

/-- C1 fixture: section of 2000 characters (500 tokens). -/
def c1s3 : String := ⟨List.replicate 2000 'c'⟩

/-- C1 fixture: three sections with token estimates 100, 400, 500. -/
def c1sections : List (String × String) := [("H1", c1s1), ("H2", c1s2), ("H3", c1s3)]

/-- C5 fixture: a one-page run of the chunker. -/
def c5run : List Chunk := chunk_sections [("Intro", "hello world")] "http://e" "T" "S" 1 900

/-- C5 fixture: its first chunk. -/
def c5chunk : Chunk := c5run.headI

/-- C2 fixture: a client serving a sitemap index with two children holding
disjoint URL sets of sizes 3 and 2. -/
def c2fetch : String → HttpResp := fun u =>
  if u = "http://s/sitemap.xml" then
    { status := 200, contentType := "application/xml",
      doc := { locs := ["http://s/sm1.xml", "http://s/sm2.xml"],
               isIndex := true, isUrlset := false } }
  else if u = "http://s/sm1.xml" then
    { status := 200, contentType := "application/xml",
      doc := { locs := ["http://s/b", "http://s/a", "http://s/c"],
               isIndex := false, isUrlset := true } }
  else if u = "http://s/sm2.xml" then
    { status := 200, contentType := "application/xml",
      doc := { locs := ["http://s/e", "http://s/d"],
               isIndex := false, isUrlset := true } }
  else { status := 404, contentType := "text/html",
         doc := { locs := [], isIndex := false, isUrlset := false } }

/-- A page on which every external extractor signal is empty. -/
def emptyPage : HtmlPage :=
  { shortTitle := "", heuristicMd := "", mwContentText := none,
    mwParserOutput := none, mainEl := none, bodyEl := none }

/-- C8 fixture: a sitemap frontier of two pages, the first of which fails
with a transport error while the second answers. -/
def c8env : CrawlEnv :=
  { fetch := fun u =>
      if u = "http://b/sitemap.xml" then
        { ok := true, status := 200, contentType := "application/xml", body := "SM" }
      else if u = "http://b/fail" then
        { ok := false, status := 0, contentType := "", body := "" }
      else if u = "http://b/ok" then
        { ok := true, status := 200, contentType := "text/html", body := "P" }
      else { ok := true, status := 404, contentType := "text/html", body := "" },
    xml := fun b =>
      if b = "SM" then
        { locs := ["http://b/fail", "http://b/ok"], isIndex := false, isUrlset := true }
      else { locs := [], isIndex := false, isUrlset := false },
    hrefs := fun _ => [],
    urljoin := fun b r => urljoinRoot b r,
    page := fun _ => emptyPage }

/-- C7 fixture: no sitemap; the base page links to the same URL twice. -/
def c7env : CrawlEnv :=
  { fetch := fun u =>
      if u = "http://b" then
        { ok := true, status := 200, contentType := "text/html", body := "B" }
      else { ok := true, status := 404, contentType := "text/html", body := "" },
    xml := fun _ => { locs := [], isIndex := false, isUrlset := false },
    hrefs := fun b => if b = "B" then ["/p", "/p"] else [],
    urljoin := fun b r => urljoinRoot b r,
    page := fun _ => emptyPage }

/-- C4 fixture: a long heuristic extraction (no fallback needed). -/
def c4longPage : HtmlPage :=
  { shortTitle := " The Title ", heuristicMd := ⟨List.replicate 300 'x'⟩,
    mwContentText := some "WIKI", mwParserOutput := some "PARSER",
    mainEl := some "MAIN", bodyEl := some "BODY" }

/-- C4 fixture: a short heuristic extraction with all fallback containers
present. -/
def c4shortPage : HtmlPage :=
  { shortTitle := " The Title ", heuristicMd := "tiny",
    mwContentText := some "WIKI", mwParserOutput := some "PARSER",
    mainEl := some "MAIN", bodyEl := some "BODY" }

/-! ## Helper lemmas about Python string stripping -/

theorem stripList_eq_rdropWhile (l : List Char) :
    stripList l = List.rdropWhile isPySpace (l.dropWhile isPySpace) := rfl

/-- A prefix of a `dropWhile`-stable list is `dropWhile`-stable. -/
theorem dropWhile_eq_self_of_front {p : Char → Bool} {l m : List Char}
    (h : l <+: m) (hm : m.dropWhile p = m) : l.dropWhile p = l := by
  cases l with
  | nil => rfl
  | cons a l' =>
    obtain ⟨t, ht⟩ := h
    subst ht
    cases hpa : p a with
    | false => simp [List.dropWhile_cons, hpa]
    | true =>
      exfalso
      rw [List.cons_append, List.dropWhile_cons, hpa] at hm
      have hle := (List.dropWhile_suffix (l := l' ++ t) p).length_le
      have := congrArg List.length hm
      simp at this hle
      omega

/-- A non-empty `dropWhile`-stable list stays stable under appending. -/
theorem dropWhile_append_of_stable {p : Char → Bool} {x z : List Char}
    (hx : x.dropWhile p = x) (hne : x ≠ []) : (x ++ z).dropWhile p = x ++ z := by
  cases x with
  | nil => exact absurd rfl hne
  | cons a x' =>
    cases hpa : p a with
    | false => simp [List.cons_append, List.dropWhile_cons, hpa]
    | true =>
      exfalso
      rw [List.dropWhile_cons, hpa] at hx
      have hle := (List.dropWhile_suffix (l := x') p).length_le
      have := congrArg List.length hx
      simp at this
      omega

/-- `rdropWhile`-stability seen through `reverse`. -/
theorem rdropWhile_eq_self_iff_rev {p : Char → Bool} {m : List Char} :
    m.rdropWhile p = m ↔ m.reverse.dropWhile p = m.reverse := by
  constructor
  · intro h
    have := congrArg List.reverse h
    rwa [List.rdropWhile, List.reverse_reverse] at this
  · intro h
    rw [List.rdropWhile, h, List.reverse_reverse]

theorem stripList_idem (l : List Char) : stripList (stripList l) = stripList l := by
  rw [stripList_eq_rdropWhile, stripList_eq_rdropWhile]
  rw [dropWhile_eq_self_of_front (List.rdropWhile_prefix _ _)
    (List.dropWhile_idempotent _ _)]
  exact List.rdropWhile_idempotent _ _

theorem pyStrip_idem (s : String) : pyStrip (pyStrip s) = pyStrip s := by
  apply String.ext
  exact stripList_idem s.data

/-- A string equal to its own strip drops nothing in front. -/
theorem dropWhile_of_stripList_eq {l : List Char} (h : stripList l = l) :
    l.dropWhile isPySpace = l := by
  have h1 := (List.rdropWhile_prefix isPySpace (l.dropWhile isPySpace)).length_le
  have h2 : l.dropWhile isPySpace <:+ l := List.dropWhile_suffix _
  rw [stripList_eq_rdropWhile] at h
  rw [h] at h1
  exact h2.eq_of_length (le_antisymm h2.length_le h1)

/-- A string equal to its own strip drops nothing at the back. -/
theorem rdropWhile_of_stripList_eq {l : List Char} (h : stripList l = l) :
    List.rdropWhile isPySpace l = l := by
  have hd := dropWhile_of_stripList_eq h
  rw [stripList_eq_rdropWhile, hd] at h
  exact h

/-- Concatenating strip-stable non-empty strings around a `"\n\n"` separator
is strip-stable. -/
theorem stripList_append_clean {x y : List Char}
    (hx : stripList x = x) (hxne : x ≠ [])
    (hy : stripList y = y) (hyne : y ≠ []) :
    stripList (x ++ '\n' :: '\n' :: y) = x ++ '\n' :: '\n' :: y := by
  have hxd := dropWhile_of_stripList_eq hx
  have hyr := rdropWhile_of_stripList_eq hy
  rw [stripList_eq_rdropWhile]
  rw [dropWhile_append_of_stable hxd hxne]
  rw [rdropWhile_eq_self_iff_rev]
  have hrev : (x ++ '\n' :: '\n' :: y).reverse = y.reverse ++ ('\n' :: '\n' :: x.reverse) := by
    simp
  rw [hrev]
  apply dropWhile_append_of_stable
  · exact (rdropWhile_eq_self_iff_rev).mp hyr
  · simpa using hyne

/-- `pyStrip` form of `stripList_append_clean`. -/
theorem pyStrip_append_clean {s t : String} (hs : Clean s) (ht : Clean t) :
    pyStrip (s ++ "\n\n" ++ t) = s ++ "\n\n" ++ t := by
  obtain ⟨hs1, hs2⟩ := hs
  obtain ⟨ht1, ht2⟩ := ht
  have hx : stripList s.data = s.data := congrArg String.data hs1
  have hy : stripList t.data = t.data := congrArg String.data ht1
  have hxne : s.data ≠ [] := fun h => hs2 (String.ext h)
  have hyne : t.data ≠ [] := fun h => ht2 (String.ext h)
  apply String.ext
  have hdata : (s ++ "\n\n" ++ t).data = s.data ++ '\n' :: '\n' :: t.data := by
    simp
  show stripList (s ++ "\n\n" ++ t).data = _
  rw [hdata, stripList_append_clean hx hxne hy hyne]


/-! ## C4 — the Content Extractor's fallback policy -/

/-- C4: the fallback path is taken exactly when the heuristic extraction is
shorter than 200 characters; the fallback body comes from the first of the
wiki main-content container, the wiki parser-output container, `main`, the
document body; the title is always the (stripped) heuristic title and is
never re-derived in the fallback. -/
theorem extract_main_markdown_spec :
    (∀ page : HtmlPage, (extract_main_markdown page).1 = pyStrip page.shortTitle) ∧
    (∀ page : HtmlPage, 200 ≤ (pyStrip (collapseNl page.heuristicMd)).length →
      (extract_main_markdown page).2 =
        pyStrip (collapseNl (pyStrip (collapseNl page.heuristicMd)))) ∧
    (∀ page : HtmlPage, ∀ m : String,
      (pyStrip (collapseNl page.heuristicMd)).length < 200 →
      page.mwContentText = some m →
      (extract_main_markdown page).2 = pyStrip (collapseNl (pyStrip m))) ∧
    (∀ page : HtmlPage, ∀ m : String,
      (pyStrip (collapseNl page.heuristicMd)).length < 200 →
      page.mwContentText = none → page.mwParserOutput = some m →
      (extract_main_markdown page).2 = pyStrip (collapseNl (pyStrip m))) ∧
    (∀ page : HtmlPage, ∀ m : String,
      (pyStrip (collapseNl page.heuristicMd)).length < 200 →
      page.mwContentText = none → page.mwParserOutput = none → page.mainEl = some m →
      (extract_main_markdown page).2 = pyStrip (collapseNl (pyStrip m))) ∧
    (∀ page : HtmlPage, ∀ m : String,
      (pyStrip (collapseNl page.heuristicMd)).length < 200 →
      page.mwContentText = none → page.mwParserOutput = none → page.mainEl = none →
      page.bodyEl = some m →
      (extract_main_markdown page).2 = pyStrip (collapseNl (pyStrip m))) ∧
    (∀ page : HtmlPage,
      (pyStrip (collapseNl page.heuristicMd)).length < 200 →
      page.mwContentText = none → page.mwParserOutput = none → page.mainEl = none →
      page.bodyEl = none →
      (extract_main_markdown page).2 =
        pyStrip (collapseNl (pyStrip (collapseNl page.heuristicMd)))) := by
  refine ⟨?_, ?_, ?_, ?_, ?_, ?_, ?_⟩
  · intro page
    rfl
  · intro page h
    simp only [extract_main_markdown]
    rw [if_neg (by omega)]
  · intro page m h hm
    simp only [extract_main_markdown, hm]
    rw [if_pos h]
    rfl
  · intro page m h h1 h2
    simp only [extract_main_markdown, h1, h2]
    rw [if_pos h]
    rfl
  · intro page m h h1 h2 h3
    simp only [extract_main_markdown, h1, h2, h3]
    rw [if_pos h]
    rfl
  · intro page m h h1 h2 h3 h4
    simp only [extract_main_markdown, h1, h2, h3, h4]
    rw [if_pos h]
    rfl
  · intro page h h1 h2 h3 h4
    simp only [extract_main_markdown, h1, h2, h3, h4]
    rw [if_pos h]
    rfl

set_option maxRecDepth 10000 in
/-- C4 witness: the long fixture keeps the heuristic body although every
fallback container is present; the short fixture takes the wiki
main-content container. -/
theorem extract_main_markdown_spec_witness :
    (200 ≤ (pyStrip (collapseNl c4longPage.heuristicMd)).length ∧
      (extract_main_markdown c4longPage).2 =
        pyStrip (collapseNl (pyStrip (collapseNl c4longPage.heuristicMd)))) ∧
    ((pyStrip (collapseNl c4shortPage.heuristicMd)).length < 200 ∧
      (extract_main_markdown c4shortPage).2 = pyStrip (collapseNl (pyStrip "WIKI"))) :=
  ⟨⟨by decide, extract_main_markdown_spec.2.1 c4longPage (by decide)⟩,
   ⟨by decide, extract_main_markdown_spec.2.2.1 c4shortPage "WIKI" (by decide) rfl⟩⟩

/-! ## C2 — the sitemap strategy -/

theorem char_toNat_lt_iff {a b : Char} : a.toNat < b.toNat ↔ a < b := by
  rw [Char.lt_def]
  simp [UInt32.lt_def, BitVec.lt_def, Char.toNat, UInt32.toNat]

theorem lexLt_iff : ∀ as bs : List Char, lexLt as bs = true ↔ as < bs := by
  intro as
  induction as with
  | nil =>
    intro bs
    cases bs with
    | nil =>
      constructor
      · intro h
        simp [lexLt] at h
      · intro h
        cases h
    | cons b bs =>
      constructor
      · intro _
        exact List.Lex.nil
      · intro _
        rfl
  | cons a as ih =>
    intro bs
    cases bs with
    | nil =>
      constructor
      · intro h
        simp [lexLt] at h
      · intro h
        cases h
    | cons b bs =>
      show (if a.toNat < b.toNat then true
            else if b.toNat < a.toNat then false else lexLt as bs) = true ↔ _
      by_cases h1 : a.toNat < b.toNat
      · rw [if_pos h1]
        have hab : a < b := char_toNat_lt_iff.mp h1
        exact ⟨fun _ => List.Lex.rel hab, fun _ => rfl⟩
      · rw [if_neg h1]
        by_cases h2 : b.toNat < a.toNat
        · rw [if_pos h2]
          constructor
          · intro h
            simp at h
          · intro h
            cases h with
            | rel h' => exact absurd h' (fun hh => h1 (char_toNat_lt_iff.mpr hh))
            | cons h' => exact absurd h2 (lt_irrefl _)
        · rw [if_neg h2]
          have hab : a = b := by
            have h3 : a.toNat = b.toNat := by omega
            rw [← Char.ofNat_toNat a, h3, Char.ofNat_toNat]
          subst hab
          rw [ih bs]
          constructor
          · intro h
            exact List.Lex.cons h
          · intro h
            cases h with
            | rel h' => exact absurd h' (lt_irrefl a)
            | cons h' => exact h'

theorem strLtB_iff {a b : String} : strLtB a b = true ↔ a < b := by
  rw [String.lt_iff_toList_lt]
  exact lexLt_iff a.data b.data

theorem insortDedup_spec (x : String) :
    ∀ l : List String, List.Pairwise (fun a b => a < b) l →
      List.Pairwise (fun a b => a < b) (insortDedup x l) ∧
      (∀ y, y ∈ insortDedup x l ↔ y = x ∨ y ∈ l) := by
  intro l
  induction l with
  | nil =>
    intro _
    refine ⟨by simp [insortDedup], ?_⟩
    intro y
    simp [insortDedup]
  | cons a l ih =>
    intro hp
    rw [List.pairwise_cons] at hp
    obtain ⟨ha, hl⟩ := hp
    by_cases hxa : x = a
    · rw [insortDedup, if_pos (by simp [hxa])]
      refine ⟨List.pairwise_cons.mpr ⟨ha, hl⟩, ?_⟩
      intro y
      subst hxa
      simp only [List.mem_cons]
      tauto
    · rw [insortDedup, if_neg (by simp [hxa])]
      by_cases hlt : x < a
      · rw [if_pos (strLtB_iff.mpr hlt)]
        refine ⟨?_, ?_⟩
        · refine List.pairwise_cons.mpr ⟨?_, List.pairwise_cons.mpr ⟨ha, hl⟩⟩
          intro b hb
          rcases List.mem_cons.mp hb with h | h
          · exact h ▸ hlt
          · exact lt_trans hlt (ha b h)
        · intro y
          simp only [List.mem_cons]
      · rw [if_neg (fun h => hlt (strLtB_iff.mp h))]
        obtain ⟨hp2, hm2⟩ := ih hl
        refine ⟨?_, ?_⟩
        · refine List.pairwise_cons.mpr ⟨?_, hp2⟩
          intro b hb
          rcases (hm2 b).mp hb with h | h
          · subst h
            rcases lt_trichotomy b a with h | h | h
            · exact absurd h hlt
            · exact absurd h.symm (fun he => hxa he.symm)
            · exact h
          · exact ha b h
        · intro y
          rw [List.mem_cons, List.mem_cons, hm2 y]
          tauto

theorem sortedDedup_go_spec :
    ∀ (l acc : List String), List.Pairwise (fun a b => a < b) acc →
      List.Pairwise (fun a b => a < b) (l.foldl (fun acc x => insortDedup x acc) acc) ∧
      (∀ y, y ∈ l.foldl (fun acc x => insortDedup x acc) acc ↔ y ∈ acc ∨ y ∈ l) := by
  intro l
  induction l with
  | nil =>
    intro acc h
    refine ⟨h, ?_⟩
    simp
  | cons a l ih =>
    intro acc h
    obtain ⟨h1, h2⟩ := insortDedup_spec a acc h
    obtain ⟨h3, h4⟩ := ih (insortDedup a acc) h1
    refine ⟨h3, ?_⟩
    intro y
    rw [List.foldl_cons, h4 y, h2 y]
    simp only [List.mem_cons]
    tauto

/-- Python's `sorted(set(l))`: a strictly increasing enumeration of exactly
the members of `l`. -/
theorem sortedDedup_spec (l : List String) :
    List.Pairwise (fun a b => a < b) (sortedDedup l) ∧
    (∀ y, y ∈ sortedDedup l ↔ y ∈ l) := by
  obtain ⟨h1, h2⟩ := sortedDedup_go_spec l [] (by simp)
  refine ⟨h1, ?_⟩
  intro y
  rw [sortedDedup, h2 y]
  simp

/-- C2: the sitemap strategy tries the two candidate locations in order; a
200/XML response that is a sitemap index yields the union of its children's
locs; a 200/XML plain urlset yields its own locs; an unusable or
unrecognised response falls through to the next candidate, and exhausting
the candidates yields no URLs; results are deduplicated and sorted; the
concrete index with children of sizes 3 and 2 yields exactly the 5 unique
URLs in sorted order. -/
theorem try_fetch_sitemap_spec :
    (∀ (fetch : String → HttpResp) (c : String) (cs : List String),
      (fetch c).status = 200 →
      infixOfL "xml".data (fetch c).contentType.data = true →
      (fetch c).doc.isIndex = true →
      tryCandidates fetch (c :: cs) = sortedDedup (childLocs fetch (fetch c).doc.locs)) ∧
    (∀ (fetch : String → HttpResp) (c : String) (cs : List String),
      (fetch c).status = 200 →
      infixOfL "xml".data (fetch c).contentType.data = true →
      (fetch c).doc.isIndex = false → (fetch c).doc.isUrlset = true →
      tryCandidates fetch (c :: cs) = sortedDedup (fetch c).doc.locs) ∧
    (∀ (fetch : String → HttpResp) (c : String) (cs : List String),
      ¬ ((fetch c).status = 200 ∧ infixOfL "xml".data (fetch c).contentType.data = true ∧
         ((fetch c).doc.isIndex = true ∨ (fetch c).doc.isUrlset = true)) →
      tryCandidates fetch (c :: cs) = tryCandidates fetch cs) ∧
    (∀ fetch : String → HttpResp, tryCandidates fetch [] = []) ∧
    (∀ l : List String, List.Pairwise (fun a b => a < b) (sortedDedup l) ∧
      (∀ y, y ∈ sortedDedup l ↔ y ∈ l)) ∧
    (try_fetch_sitemap c2fetch "http://s" =
      ["http://s/a", "http://s/b", "http://s/c", "http://s/d", "http://s/e"]) := by
  refine ⟨?_, ?_, ?_, ?_, sortedDedup_spec, by decide⟩
  · intro fetch c cs h1 h2 h3
    simp only [tryCandidates]
    rw [if_neg (by simp [h1, h2]), if_pos (by simp [h3])]
  · intro fetch c cs h1 h2 h3 h4
    simp only [tryCandidates]
    rw [if_neg (by simp [h1, h2]), if_neg (by simp [h3]), if_pos (by simp [h4])]
  · intro fetch c cs h
    simp only [tryCandidates]
    by_cases h1 : (fetch c).status = 200 ∧
        infixOfL "xml".data (fetch c).contentType.data = true
    · have h2 : (fetch c).doc.isIndex = false := by
        cases hx : (fetch c).doc.isIndex with
        | false => rfl
        | true => exact absurd ⟨h1.1, h1.2, Or.inl hx⟩ h
      have h3 : (fetch c).doc.isUrlset = false := by
        cases hx : (fetch c).doc.isUrlset with
        | false => rfl
        | true => exact absurd ⟨h1.1, h1.2, Or.inr hx⟩ h
      rw [if_neg (by simp [h1.1, h1.2]), if_neg (by simp [h2]), if_neg (by simp [h3])]
    · rw [if_pos]
      rw [Classical.not_and_iff_or_not_not] at h1
      rcases h1 with h1 | h1
      · exact Or.inl h1
      · exact Or.inr (by simpa using h1)
  · intro fetch
    rfl

/-- C2 witness: the concrete index client satisfies the usable-index
hypotheses and the strategy returns the merged children. -/
theorem try_fetch_sitemap_spec_witness :
    ((c2fetch "http://s/sitemap.xml").status = 200 ∧
     infixOfL "xml".data (c2fetch "http://s/sitemap.xml").contentType.data = true ∧
     (c2fetch "http://s/sitemap.xml").doc.isIndex = true) ∧
    tryCandidates c2fetch ["http://s/sitemap.xml", "http://s/sitemap_index.xml"] =
      sortedDedup (childLocs c2fetch (c2fetch "http://s/sitemap.xml").doc.locs) :=
  ⟨⟨by decide, by decide, by decide⟩,
   try_fetch_sitemap_spec.1 c2fetch "http://s/sitemap.xml" ["http://s/sitemap_index.xml"]
     (by decide) (by decide) (by decide)⟩

/-! ## C8 — the delay discipline of the crawl loop -/

theorem delayPattern_append (env : CrawlEnv) :
    ∀ (n : Nat) (a b : List CrawlEvent), a.length ≤ n →
      delayPattern env a = true → delayPattern env b = true →
      delayPattern env (a ++ b) = true := by
  intro n
  induction n with
  | zero =>
    intro a b ha h1 h2
    have : a = [] := List.length_eq_zero.mp (Nat.le_zero.mp ha)
    subst this
    simpa
  | succ n ih =>
    intro a b ha h1 h2
    cases a with
    | nil => simpa
    | cons e rest =>
      cases e with
      | sleepEv => simp [delayPattern] at h1
      | fetchEv u =>
        cases rest with
        | nil =>
          cases b with
          | nil => simpa using h1
          | cons e2 b' =>
            cases e2 with
            | sleepEv => simp [delayPattern] at h2
            | fetchEv v =>
              show delayPattern env
                (CrawlEvent.fetchEv u :: CrawlEvent.fetchEv v :: b') = true
              rw [delayPattern]
              simp only [delayPattern] at h1
              rw [h1]
              simpa using h2
        | cons e2 rest' =>
          cases e2 with
          | sleepEv =>
            simp only [delayPattern, Bool.and_eq_true] at h1
            show delayPattern env
              (CrawlEvent.fetchEv u :: CrawlEvent.sleepEv :: (rest' ++ b)) = true
            rw [delayPattern]
            simp only [Bool.and_eq_true]
            refine ⟨h1.1, ?_⟩
            exact ih rest' b (by simp at ha; omega) h1.2 h2
          | fetchEv v =>
            simp only [delayPattern, Bool.and_eq_true] at h1
            show delayPattern env
              (CrawlEvent.fetchEv u :: ((CrawlEvent.fetchEv v :: rest') ++ b)) = true
            rw [List.cons_append, delayPattern]
            simp only [Bool.and_eq_true]
            refine ⟨h1.1, ?_⟩
            rw [← List.cons_append]
            exact ih (CrawlEvent.fetchEv v :: rest') b (by simp at ha ⊢; omega) h1.2 h2

theorem crawlLoop_delay (env : CrawlEnv) (base : String) (useSeed : Bool)
    (mp mt MT : Nat) :
    ∀ (fuel : Nat) (st : CrawlState), delayPattern env st.trace = true →
      delayPattern env ((crawlLoop env base useSeed mp mt MT fuel st).trace) = true := by
  intro fuel
  induction fuel with
  | zero =>
    intro st h
    simpa [crawlLoop]
  | succ fuel ih =>
    intro st h
    rw [crawlLoop]
    by_cases hg : st.i < st.queue.length ∧ st.i < mp
    · rw [if_pos hg]
      set url := normD (st.queue.getD st.i "") with hurl
      by_cases hseen : ({ st with i := st.i + 1 } : CrawlState).seen.contains url
      · rw [if_pos hseen]
        exact ih _ h
      · rw [if_neg hseen]
        by_cases hok : (env.fetch url).ok
        · rw [if_neg (by simp [hok])]
          by_cases hst : (env.fetch url).status ≠ 200 ∨ ¬ is_html_response (env.fetch url)
          · rw [if_pos hst]
            apply ih
            show delayPattern env
              ((st.trace ++ [CrawlEvent.fetchEv url]) ++ [CrawlEvent.sleepEv]) = true
            rw [List.append_assoc]
            apply delayPattern_append env (st.trace.length + 2) _ _ (by simp) h
            simp [delayPattern, hok]
          · rw [if_neg hst]
            by_cases hmd : (extract_main_markdown (env.page (env.fetch url).body)).2 = "" ∨
                (extract_main_markdown (env.page (env.fetch url).body)).2.length < 200
            · rw [if_pos hmd]
              apply ih
              split
              all_goals
                show delayPattern env
                  ((st.trace ++ [CrawlEvent.fetchEv url]) ++ [CrawlEvent.sleepEv]) = true
                rw [List.append_assoc]
                apply delayPattern_append env (st.trace.length + 2) _ _ (by simp) h
                simp [delayPattern, hok]
            · rw [if_neg hmd]
              apply ih
              split
              all_goals
                show delayPattern env
                  ((st.trace ++ [CrawlEvent.fetchEv url]) ++ [CrawlEvent.sleepEv]) = true
                rw [List.append_assoc]
                apply delayPattern_append env (st.trace.length + 2) _ _ (by simp) h
                simp [delayPattern, hok]
        · rw [if_pos (by simp [hok])]
          apply ih
          show delayPattern env (st.trace ++ [CrawlEvent.fetchEv url]) = true
          apply delayPattern_append env (st.trace.length + 1) _ _ (by simp) h
          simp [delayPattern, hok]
    · rw [if_neg hg]
      exact h

/-- C8 (amended): the crawl sleeps the configured delay exactly after each
fetch attempt that receives a response — non-200, non-HTML, under-threshold
and successful pages alike — and never anywhere else: not before the first
fetch, and in particular not after a fetch that dies in transport
(`except Exception: continue` on line 315 skips the sleep). -/
theorem delay_after_answered_fetches (env : CrawlEnv) (base0 : String)
    (max_pages min_tok max_tok : Nat) :
    delayPattern env (crawlMain env base0 max_pages min_tok max_tok).trace = true := by
  apply crawlLoop_delay
  rfl

/-- C8 counterexample to the claim as stated: in the two-page fixture the
transport-failing fetch of `http://b/fail` is followed immediately by the
next fetch with no delay between them, although the claim requires a delay
after every fetch attempt. -/
theorem transport_failure_skips_delay :
    (crawlMain c8env "http://b" 5 250 900).trace =
      [CrawlEvent.fetchEv "http://b/fail", CrawlEvent.fetchEv "http://b/ok",
       CrawlEvent.sleepEv] ∧
    (c8env.fetch "http://b/fail").ok = false := by
  refine ⟨by decide, by decide⟩

/-! ## C6 — each normalized URL is fetched at most once -/

theorem fetchedUrls_append (a b : List CrawlEvent) :
    fetchedUrls (a ++ b) = fetchedUrls a ++ fetchedUrls b := by
  simp [fetchedUrls, List.filterMap_append]

theorem crawlLoop_fetch_once (env : CrawlEnv) (base : String) (useSeed : Bool)
    (mp mt MT : Nat) :
    ∀ (fuel : Nat) (st : CrawlState),
      (∀ u ∈ fetchedUrls st.trace, u ∈ st.seen) → (fetchedUrls st.trace).Nodup →
      (∀ u ∈ fetchedUrls ((crawlLoop env base useSeed mp mt MT fuel st).trace),
        u ∈ (crawlLoop env base useSeed mp mt MT fuel st).seen) ∧
      (fetchedUrls ((crawlLoop env base useSeed mp mt MT fuel st).trace)).Nodup := by
  intro fuel
  induction fuel with
  | zero =>
    intro st h1 h2
    exact ⟨h1, h2⟩
  | succ fuel ih =>
    intro st h1 h2
    rw [crawlLoop]
    by_cases hg : st.i < st.queue.length ∧ st.i < mp
    · rw [if_pos hg]
      set url := normD (st.queue.getD st.i "") with hurl
      by_cases hseen : ({ st with i := st.i + 1 } : CrawlState).seen.contains url
      · rw [if_pos hseen]
        exact ih _ h1 h2
      · rw [if_neg hseen]
        have hnotin : url ∉ st.seen := by
          intro hmem
          apply hseen
          simpa using hmem
        have hnotfetched : url ∉ fetchedUrls st.trace := fun hf => hnotin (h1 url hf)
        have hmem1 : ∀ u ∈ fetchedUrls (st.trace ++ [CrawlEvent.fetchEv url]),
            u ∈ url :: st.seen := by
          intro u hu
          rw [fetchedUrls_append] at hu
          rcases List.mem_append.mp hu with h | h
          · exact List.mem_cons_of_mem _ (h1 u h)
          · simp [fetchedUrls] at h
            simp [h]
        have hnd1 : (fetchedUrls (st.trace ++ [CrawlEvent.fetchEv url])).Nodup := by
          rw [fetchedUrls_append]
          rw [List.nodup_append]
          refine ⟨h2, by simp [fetchedUrls], ?_⟩
          intro u hu
          simp [fetchedUrls]
          intro he
          subst he
          exact absurd hu hnotfetched
        by_cases hok : (env.fetch url).ok
        · rw [if_neg (by simp [hok])]
          by_cases hst : (env.fetch url).status ≠ 200 ∨ ¬ is_html_response (env.fetch url)
          · rw [if_pos hst]
            apply ih
            · intro u hu
              rw [fetchedUrls_append] at hu
              rcases List.mem_append.mp hu with h | h
              · exact hmem1 u h
              · simp [fetchedUrls] at h
            · rw [fetchedUrls_append]
              simpa [fetchedUrls] using hnd1
          · rw [if_neg hst]
            by_cases hmd : (extract_main_markdown (env.page (env.fetch url).body)).2 = "" ∨
                (extract_main_markdown (env.page (env.fetch url).body)).2.length < 200
            · rw [if_pos hmd]
              apply ih
              all_goals split
              all_goals
                first
                | (intro u hu
                   rw [fetchedUrls_append] at hu
                   rcases List.mem_append.mp hu with h | h
                   · exact hmem1 u h
                   · simp [fetchedUrls] at h)
                | (rw [fetchedUrls_append]
                   simpa [fetchedUrls] using hnd1)
            · rw [if_neg hmd]
              apply ih
              all_goals split
              all_goals
                first
                | (intro u hu
                   rw [fetchedUrls_append] at hu
                   rcases List.mem_append.mp hu with h | h
                   · exact hmem1 u h
                   · simp [fetchedUrls] at h)
                | (rw [fetchedUrls_append]
                   simpa [fetchedUrls] using hnd1)
        · rw [if_pos (by simp [hok])]
          apply ih
          · exact hmem1
          · exact hnd1
    · rw [if_neg hg]
      exact ⟨h1, h2⟩

/-- C6: within one run no URL is fetched twice — the list of URLs handed to
`client.get` by the loop contains no duplicates, because each popped URL is
normalized, skipped when already visited and added to the visited set
before its fetch. -/
theorem no_url_fetched_twice (env : CrawlEnv) (base0 : String)
    (max_pages min_tok max_tok : Nat) :
    (fetchedUrls (crawlMain env base0 max_pages min_tok max_tok).trace).Nodup := by
  exact (crawlLoop_fetch_once env (normD base0) _ max_pages min_tok max_tok
    max_pages _ (by simp [fetchedUrls]) (by simp [fetchedUrls])).2

/-! ## C7 — what the seed strategy enqueues -/

/-- C7 counterexample to the claim as stated: links already present in the
queue are appended again.  In the seed fixture the base page links to
`http://b/p` twice; both copies pass the filter (the code checks only the
visited set), so the final queue holds the URL twice — the second append
happened although the URL was already present in the queue. -/
theorem enqueue_requeues_queued_link :
    (crawlMain c7env "http://b" 5 250 900).queue =
      ["http://b", "http://b/p", "http://b/p"] ∧
    same_scope "http://b/p" "http://b" = true ∧
    keep_url "http://b/p" = true ∧
    enqueue_links "http://b" ["http://b/x"] [] ["http://b/x"] 10 =
      ["http://b/x", "http://b/x"] := by
  refine ⟨by decide, by decide, by decide, by decide⟩

/-- C7 (amended): under the seed strategy a link is appended to the frontier
queue if and only if it is in scope, allowed by the path-exclusion rule and
not already visited — presence in the queue is not checked (duplicates are
instead skipped at fetch time by the visited set); the queue is then
truncated to the page cap. -/
theorem enqueue_links_spec (base : String) (queue seen links : List String)
    (max_pages : Nat)
    (hlen : (queue ++ links.filter fun link =>
      same_scope link base && keep_url link && !(seen.contains link)).length ≤ max_pages) :
    ∀ l, l ∈ enqueue_links base queue seen links max_pages ↔
      l ∈ queue ∨ (l ∈ links ∧ same_scope l base = true ∧ keep_url l = true ∧ l ∉ seen) := by
  intro l
  rw [enqueue_links]
  rw [if_neg (by omega)]
  rw [List.mem_append, List.mem_filter]
  simp only [Bool.and_eq_true, Bool.not_eq_true']
  constructor
  · rintro (h | ⟨h1, ⟨h2, h3⟩, h4⟩)
    · exact Or.inl h
    · refine Or.inr ⟨h1, h2, h3, ?_⟩
      intro hmem
      have h5 : seen.contains l = true := List.elem_iff.mpr hmem
      rw [h4] at h5
      exact Bool.noConfusion h5
  · rintro (h | ⟨h1, h2, h3, h4⟩)
    · exact Or.inl h
    · refine Or.inr ⟨h1, ⟨h2, h3⟩, ?_⟩
      cases hc : seen.contains l with
      | false => rfl
      | true => exact absurd (List.elem_iff.mp hc) h4

/-- C7 witness: a concrete enqueue step in which an in-scope allowed
unvisited link is appended. -/
theorem enqueue_links_spec_witness :
    (((["http://b/q"] ++ ["http://b/x", "http://other/y"].filter fun link =>
        same_scope link "http://b" && keep_url link &&
          !((["http://b/v"] : List String).contains link)).length ≤ 10) ∧
     ("http://b/x" ∈ enqueue_links "http://b" ["http://b/q"] ["http://b/v"]
        ["http://b/x", "http://other/y"] 10 ↔
      "http://b/x" ∈ (["http://b/q"] : List String) ∨
        ("http://b/x" ∈ (["http://b/x", "http://other/y"] : List String) ∧
         same_scope "http://b/x" "http://b" = true ∧ keep_url "http://b/x" = true ∧
         "http://b/x" ∉ (["http://b/v"] : List String)))) := by
  refine ⟨by decide, enqueue_links_spec "http://b" ["http://b/q"] ["http://b/v"]
    ["http://b/x", "http://other/y"] 10 (by decide) "http://b/x"⟩

/-! ## C1 — the Chunker follows the spec's greedy accumulation -/

theorem chunkGo_eq_foldl (url title source : String) (m M : Nat) :
    ∀ (secs : List (String × String)) (buf : String) (path : List String)
      (chunks : List Chunk),
      chunkGo url title source m M secs buf path chunks =
        (let fin := secs.foldl (chunkSpecStep url title source m M) (buf, path, chunks)
         if fin.1 ≠ "" then flushChunk url title source fin.2.2 fin.1 fin.2.1
         else fin.2.2) := by
  intro secs
  induction secs with
  | nil =>
    intro buf path chunks
    simp only [chunkGo, List.foldl_nil]
  | cons hd tl ih =>
    intro buf path chunks
    obtain ⟨heading, sec⟩ := hd
    rw [List.foldl_cons]
    show chunkGo url title source m M ((heading, sec) :: tl) buf path chunks = _
    rw [chunkGo]
    simp only [chunkSpecStep, sectionPathOf, ge_iff_le]
    try dsimp only
    by_cases hbuf : buf = ""
    · simp only [if_pos hbuf]
      exact ih sec _ chunks
    · simp only [if_neg hbuf]
      by_cases hmax : approx_tokens buf + approx_tokens sec > M
      · simp only [if_pos hmax]
        by_cases hmin : m ≤ approx_tokens sec
        · simp only [if_pos hmin]
          exact ih "" [] _
        · simp only [if_neg hmin]
          exact ih sec _ _
      · simp only [if_neg hmax]
        by_cases hmin : m ≤ approx_tokens (pyStrip (buf ++ "\n\n" ++ sec))
        · simp only [if_pos hmin]
          exact ih "" [] _
        · simp only [if_neg hmin]
          exact ih _ _ chunks

/-- A repeated non-whitespace character is a clean section text. -/
theorem clean_replicate {c : Char} {n : Nat} (hn : 0 < n) (hc : isPySpace c = false) :
    Clean (⟨List.replicate n c⟩ : String) := by
  constructor
  · apply String.ext
    show stripList (List.replicate n c) = List.replicate n c
    cases n with
    | zero => exact absurd hn (by simp)
    | succ k =>
      rw [stripList_eq_rdropWhile]
      have h1 : (List.replicate (k + 1) c).dropWhile isPySpace =
          List.replicate (k + 1) c := by
        rw [List.replicate_succ, List.dropWhile_cons]
        simp [hc]
      rw [h1, rdropWhile_eq_self_iff_rev, List.reverse_replicate,
        List.replicate_succ, List.dropWhile_cons]
      simp [hc]
  · intro h
    have h2 := congrArg String.data h
    simp only [String.data] at h2
    have := congrArg List.length h2
    simp at this
    omega

theorem length_mk_replicate (n : Nat) (c : Char) :
    (⟨List.replicate n c⟩ : String).length = n := by
  show (List.replicate n c).length = n
  exact List.length_replicate n c

theorem c1_clean1 : Clean c1s1 := clean_replicate (by omega) (by decide)

theorem c1_clean2 : Clean c1s2 := clean_replicate (by omega) (by decide)

theorem c1_clean3 : Clean c1s3 := clean_replicate (by omega) (by decide)

theorem c1_join_clean : pyStrip (c1s1 ++ "\n\n" ++ c1s2) = c1s1 ++ "\n\n" ++ c1s2 :=
  pyStrip_append_clean c1_clean1 c1_clean2

theorem c1_tok1 : approx_tokens c1s1 = 100 := by
  rw [approx_tokens, c1s1, length_mk_replicate]
  decide

theorem c1_tok2 : approx_tokens c1s2 = 400 := by
  rw [approx_tokens, c1s2, length_mk_replicate]
  decide

theorem c1_tok3 : approx_tokens c1s3 = 500 := by
  rw [approx_tokens, c1s3, length_mk_replicate]
  decide

theorem c1_join_len : (c1s1 ++ "\n\n" ++ c1s2).length = 2002 := by
  rw [String.length_append, String.length_append]
  rw [c1s1, c1s2, length_mk_replicate, length_mk_replicate]
  rfl

theorem c1_join_tok : approx_tokens (c1s1 ++ "\n\n" ++ c1s2) = 500 := by
  rw [approx_tokens, c1_join_len]
  decide

theorem flushChunk_of_clean (url title source : String) (chunks : List Chunk)
    (buf : String) (path : List String) (hb : pyStrip buf = buf) (hne : buf ≠ "") :
    flushChunk url title source chunks buf path =
      chunks ++ [⟨(sha1 (url ++ "\n" ++ buf)).take 16, buf, source, url, title,
                 pyJoin " > " (path.filter fun p => p ≠ "")⟩] := by
  rw [flushChunk]
  simp only [hb]
  rw [if_neg hne]

/-- C1: the Chunker is exactly the spec's greedy buffer process — seed an
empty buffer; flush-then-seed when the token budget would be exceeded, else
append with a blank line keeping the first non-empty section path; flush as
soon as the buffer reaches `min_tok` after an accumulation step; flush any
remainder at the end.  On three sections of 100, 400 and 500 tokens with
`min_tok = 250`, `max_tok = 900` it emits exactly two passages: sections 1-2
together, then section 3 alone. -/
theorem chunk_sections_eq_spec_and_example :
    (∀ (sections : List (String × String)) (url title source : String) (m M : Nat),
      chunk_sections sections url title source m M =
        chunkSpec sections url title source m M) ∧
    (chunk_sections c1sections "http://e/p" "T" "S" 250 900).map Chunk.text =
      [c1s1 ++ "\n\n" ++ c1s2, c1s3] := by
  constructor
  · intro sections url title source m M
    rw [chunk_sections, chunkSpec]
    exact chunkGo_eq_foldl url title source m M sections "" [] []
  · rw [chunk_sections, c1sections]
    rw [chunkGo, if_pos rfl]
    rw [chunkGo, if_neg c1_clean1.2]
    have hmax : ¬ (approx_tokens c1s1 + approx_tokens c1s2 > 900) := by
      rw [c1_tok1, c1_tok2]
      omega
    simp only [if_neg hmax]
    try dsimp only
    have hmin : approx_tokens (pyStrip (c1s1 ++ "\n\n" ++ c1s2)) ≥ 250 := by
      rw [c1_join_clean, c1_join_tok]
      omega
    simp only [if_pos hmin]
    try dsimp only
    rw [chunkGo, if_pos rfl]
    rw [chunkGo, if_pos c1_clean3.2]
    rw [c1_join_clean]
    rw [flushChunk_of_clean _ _ _ _ c1s3 _ c1_clean3.1 c1_clean3.2]
    rw [flushChunk_of_clean _ _ _ _ (c1s1 ++ "\n\n" ++ c1s2) _ c1_join_clean (by
      intro h
      have h2 := congrArg String.length h
      rw [c1_join_len] at h2
      simp at h2)]
    simp

/-- `specGroupsF` does not depend on the fuel once the fuel covers the list
length. -/
theorem specGroupsF_fuel_eq (f1 : Nat) : ∀ (f2 : Nat) (l : List String),
    l.length ≤ f1 → l.length ≤ f2 → specGroupsF f1 l = specGroupsF f2 l := by
  induction f1 with
  | zero =>
    intro f2 l h1 _
    have hl : l = [] := List.length_eq_zero.mp (Nat.le_zero.mp h1)
    subst hl
    cases f2 <;> rfl
  | succ a ih =>
    intro f2 l h1 h2
    cases l with
    | nil => cases f2 <;> rfl
    | cons hd tl =>
      cases f2 with
      | zero => simp at h2
      | succ b =>
        rw [specGroupsF, specGroupsF]
        congr 1
        have hd1 := (List.dropWhile_suffix (l := tl) notHeading).length_le
        simp only [List.length_cons, Nat.succ_le_succ_iff] at h1 h2
        exact ih b _ (le_trans hd1 h1) (le_trans hd1 h2)

/-- The line loop of `split_by_headings` appends, after the pending section
(if non-empty once the leading non-heading lines are absorbed), exactly the
heading-delimited groups of the remaining lines. -/
theorem splitGo_eq_specGroups : ∀ (lines : List String) (cur_h : String)
    (cur : List String) (secs : List (String × List String)),
    splitGo lines cur_h cur secs =
      secs ++
        (if cur ++ lines.takeWhile notHeading ≠ [] then
          [(cur_h, cur ++ lines.takeWhile notHeading)] else []) ++
        specGroupsF lines.length (lines.dropWhile notHeading) := by
  intro lines
  induction lines with
  | nil =>
    intro cur_h cur secs
    rw [splitGo]
    simp only [List.takeWhile_nil, List.dropWhile_nil, List.append_nil,
      List.length_nil]
    by_cases hc : cur = []
    · subst hc
      simp [specGroupsF]
    · simp [hc, specGroupsF]
  | cons line rest ih =>
    intro cur_h cur secs
    cases hm : headingMatch line.data with
    | some h =>
      have hnh : notHeading line = false := by
        simp [notHeading, hm]
      rw [splitGo]
      simp only [hm]
      rw [ih]
      simp only [List.takeWhile_cons, List.dropWhile_cons, hnh, Bool.false_eq_true,
        if_false, List.length_cons]
      rw [specGroupsF]
      have hho : headingOf line = (⟨h⟩ : String) := by
        simp [headingOf, hm]
      rw [hho]
      by_cases hc : cur = []
      · subst hc
        simp
      · simp [hc]
    | none =>
      have hnh : notHeading line = true := by
        simp [notHeading, hm]
      rw [splitGo]
      simp only [hm]
      rw [ih]
      simp only [List.takeWhile_cons, List.dropWhile_cons, hnh, if_true,
        List.length_cons]
      have hfe : specGroupsF rest.length (rest.dropWhile notHeading) =
          specGroupsF (rest.length + 1) (rest.dropWhile notHeading) := by
        have hd1 := (List.dropWhile_suffix (l := rest) notHeading).length_le
        exact specGroupsF_fuel_eq _ _ _ hd1 (le_trans hd1 (Nat.le_succ _))
      rw [hfe]
      have hassoc : cur ++ [line] ++ rest.takeWhile notHeading =
          cur ++ (line :: rest.takeWhile notHeading) := by
        simp
      rw [hassoc]

/-- C3: `split_by_headings` returns, in document order, exactly the spec's
sections — a heading line (1-6 markers, whitespace, text) starts a section
whose heading is the trimmed remainder after the markers, every line up to
the next heading line (the heading line itself included) is kept verbatim,
content before the first heading forms a preface section with empty heading,
and sections whose joined text strips to empty are dropped. On a concrete
document with a whitespace-only preface and two headings, the preface is
dropped and the two sections come out verbatim. -/
theorem split_by_headings_spec :
    (∀ md : String, split_by_headings md = specSections md) ∧
    split_by_headings "   \n# A\nx\n## B y\nz" =
      [("A", "# A\nx"), ("B y", "## B y\nz")] := by
  constructor
  · intro md
    rw [split_by_headings, specSections]
    rw [splitGo_eq_specGroups]
    by_cases hp : (pySplitlines md).takeWhile notHeading = []
    · simp [hp]
    · simp [hp]
  · decide

/-- Any chunk appended by `flushChunk` carries the id
`sha1(url + "\n" + text)[:16]`, a stripped text and the run's url. -/
theorem flushChunk_inv (url title source : String) (chunks : List Chunk)
    (buf : String) (path : List String)
    (h : ∀ c ∈ chunks, c.chunk_id = (sha1 (c.url ++ "\n" ++ c.text)).take 16 ∧
      pyStrip c.text = c.text ∧ c.url = url) :
    ∀ c ∈ flushChunk url title source chunks buf path,
      c.chunk_id = (sha1 (c.url ++ "\n" ++ c.text)).take 16 ∧
      pyStrip c.text = c.text ∧ c.url = url := by
  intro c hc
  simp only [flushChunk] at hc
  by_cases ht : pyStrip buf = ""
  · rw [if_pos ht] at hc
    exact h c hc
  · rw [if_neg ht] at hc
    rcases List.mem_append.mp hc with h1 | h2
    · exact h c h1
    · rw [List.mem_singleton] at h2
      subst h2
      try dsimp only
      exact ⟨rfl, pyStrip_idem buf, rfl⟩

/-- The chunk-id invariant is preserved through the chunker loop. -/
theorem chunkGo_inv (url title source : String) (m M : Nat) :
    ∀ (sections : List (String × String)) (buf : String) (path : List String)
      (chunks : List Chunk),
      (∀ c ∈ chunks, c.chunk_id = (sha1 (c.url ++ "\n" ++ c.text)).take 16 ∧
        pyStrip c.text = c.text ∧ c.url = url) →
      ∀ c ∈ chunkGo url title source m M sections buf path chunks,
        c.chunk_id = (sha1 (c.url ++ "\n" ++ c.text)).take 16 ∧
        pyStrip c.text = c.text ∧ c.url = url := by
  intro sections
  induction sections with
  | nil =>
    intro buf path chunks h c hc
    rw [chunkGo] at hc
    by_cases hb : buf ≠ ""
    · rw [if_pos hb] at hc
      exact flushChunk_inv url title source chunks buf path h c hc
    · rw [if_neg hb] at hc
      exact h c hc
  | cons hdsec rest ih =>
    obtain ⟨heading, sectext⟩ := hdsec
    intro buf path chunks h c hc
    simp only [chunkGo] at hc
    by_cases hb : buf = ""
    · simp only [if_pos hb] at hc
      exact ih sectext _ chunks h c hc
    · simp only [if_neg hb] at hc
      by_cases hmax : approx_tokens buf + approx_tokens sectext > M
      · simp only [if_pos hmax] at hc
        by_cases hmin : approx_tokens sectext ≥ m
        · simp only [if_pos hmin] at hc
          exact ih "" [] _
            (flushChunk_inv url title source _ sectext _
              (flushChunk_inv url title source chunks buf path h)) c hc
        · simp only [if_neg hmin] at hc
          exact ih sectext _ _
            (flushChunk_inv url title source chunks buf path h) c hc
      · simp only [if_neg hmax] at hc
        by_cases hmin : approx_tokens (pyStrip (buf ++ "\n\n" ++ sectext)) ≥ m
        · simp only [if_pos hmin] at hc
          exact ih "" [] _
            (flushChunk_inv url title source chunks _ _ h) c hc
        · simp only [if_neg hmin] at hc
          exact ih _ _ chunks h c hc

/-- The first element of a non-empty list is a member. -/
theorem headI_mem_of_ne_nil {α : Type} [Inhabited α] (l : List α) (h : l ≠ []) :
    l.headI ∈ l := by
  cases l with
  | nil => exact absurd rfl h
  | cons a t => exact List.mem_cons_self a t

/-- C5: every passage emitted by the chunker has
`chunk_id = sha1(url + "\n" + text)[:16]` where `text` is the trimmed
buffer text (trimmed already, so re-trimming is the identity) and `url` is
the run's origin url; and across any two runs, chunks agreeing on
`(url, text)` carry the same id — the id depends on nothing else. -/
theorem chunk_id_spec :
    (∀ (sections : List (String × String)) (url title source : String)
        (m M : Nat) (c : Chunk), c ∈ chunk_sections sections url title source m M →
        c.chunk_id = (sha1 (c.url ++ "\n" ++ c.text)).take 16 ∧
        pyStrip c.text = c.text ∧ c.url = url) ∧
    (∀ (s1 : List (String × String)) (u1 t1 src1 : String) (m1 M1 : Nat)
        (s2 : List (String × String)) (u2 t2 src2 : String) (m2 M2 : Nat)
        (c c' : Chunk), c ∈ chunk_sections s1 u1 t1 src1 m1 M1 →
        c' ∈ chunk_sections s2 u2 t2 src2 m2 M2 →
        c.url = c'.url → c.text = c'.text → c.chunk_id = c'.chunk_id) := by
  have main : ∀ (sections : List (String × String)) (url title source : String)
      (m M : Nat) (c : Chunk), c ∈ chunk_sections sections url title source m M →
      c.chunk_id = (sha1 (c.url ++ "\n" ++ c.text)).take 16 ∧
      pyStrip c.text = c.text ∧ c.url = url := by
    intro sections url title source m M c hc
    rw [chunk_sections] at hc
    refine chunkGo_inv url title source m M sections "" [] [] ?_ c hc
    intro x hx
    exact absurd hx (List.not_mem_nil x)
  refine ⟨main, ?_⟩
  intro s1 u1 t1 src1 m1 M1 s2 u2 t2 src2 m2 M2 c c' hc hc' hurl htext
  have h1 := main s1 u1 t1 src1 m1 M1 c hc
  have h2 := main s2 u2 t2 src2 m2 M2 c' hc'
  rw [h1.1, h2.1, hurl, htext]

theorem chunk_id_spec_witness :
    ((chunk_sections [(("" : String), "xy")] "u" "" "s" 250 900).headI.chunk_id =
      (sha1 ((chunk_sections [(("" : String), "xy")] "u" "" "s" 250 900).headI.url ++
        "\n" ++
        (chunk_sections [(("" : String), "xy")] "u" "" "s" 250 900).headI.text)).take
        16) ∧
    (chunk_sections [(("" : String), "xy")] "u" "" "s" 250 900).headI.url = "u" := by
  have hne : chunk_sections [(("" : String), "xy")] "u" "" "s" 250 900 ≠ [] := by
    decide
  have h := chunk_id_spec.1 [(("" : String), "xy")] "u" "" "s" 250 900 _
    (headI_mem_of_ne_nil _ hne)
  exact ⟨h.1, h.2.2⟩

/-- `approx_tokens` is monotone in the string length. -/
theorem approx_mono {s t : String} (h : s.length ≤ t.length) :
    approx_tokens s ≤ approx_tokens t := by
  simp only [approx_tokens]
  exact max_le_max (le_refl 1) (Nat.div_le_div_right h)

/-- Token estimates are nearly additive over a blank-line join: the sum
exceeds the joint estimate by at most one. -/
theorem approx_split (a b : String) (ha : a ≠ "") :
    approx_tokens a + approx_tokens b ≤ approx_tokens (a ++ "\n\n" ++ b) + 1 := by
  have h1 : 1 ≤ a.length := by
    rcases Nat.eq_zero_or_pos a.length with h0 | h0
    · exact absurd (String.ext (List.length_eq_zero.mp h0)) ha
    · exact h0
  have hnn : ("\n\n" : String).length = 2 := rfl
  have hlen : (a ++ "\n\n" ++ b).length = a.length + 2 + b.length := by
    simp [String.length_append, hnn]
  simp only [approx_tokens, hlen, Nat.max_def]
  split_ifs <;> omega

/-- A blank-line join of clean strings is clean. -/
theorem Clean_append {s t : String} (hs : Clean s) (ht : Clean t) :
    Clean (s ++ "\n\n" ++ t) := by
  refine ⟨pyStrip_append_clean hs ht, ?_⟩
  intro h
  have h2 := congrArg String.length h
  have hnn : ("\n\n" : String).length = 2 := rfl
  simp [String.length_append, hnn] at h2

/-- The accumulated buffer only grows. -/
theorem joinAcc_len : ∀ (l : List String) (buf : String),
    buf.length ≤ (joinAcc buf l).length := by
  intro l
  induction l with
  | nil => intro buf; exact le_refl _
  | cons x xs ih =>
    intro buf
    have h1 : buf.length ≤ (buf ++ "\n\n" ++ x).length := by
      have hnn : ("\n\n" : String).length = 2 := rfl
      simp [String.length_append, hnn]
      omega
    exact le_trans h1 (ih (buf ++ "\n\n" ++ x))

/-- The chunker's buffer accumulator is the blank-line join. -/
theorem joinAcc_eq_pyJoin : ∀ (l : List String) (buf : String),
    joinAcc buf l = pyJoin "\n\n" (buf :: l) := by
  intro l
  induction l with
  | nil => intro buf; rfl
  | cons x xs ih =>
    intro buf
    show joinAcc (buf ++ "\n\n" ++ x) xs = _
    rw [ih]
    cases xs with
    | nil => rfl
    | cons y ys =>
      show (buf ++ "\n\n" ++ x) ++ "\n\n" ++ pyJoin "\n\n" (y :: ys) =
        buf ++ "\n\n" ++ (x ++ "\n\n" ++ pyJoin "\n\n" (y :: ys))
      simp [String.append_assoc]

/-- While the whole remaining accumulation stays under `min_tok ≤ max_tok`,
the chunker keeps appending clean sections into one buffer and finally emits
exactly that joined buffer. -/
theorem chunkGo_under_min (url title source : String) (m M : Nat) (hmM : m ≤ M) :
    ∀ (rest : List (String × String)) (buf : String) (path : List String),
      Clean buf →
      (∀ p ∈ rest, Clean p.2) →
      approx_tokens (joinAcc buf (rest.map Prod.snd)) < m →
      (chunkGo url title source m M rest buf path []).map Chunk.text =
        [joinAcc buf (rest.map Prod.snd)] := by
  intro rest
  induction rest with
  | nil =>
    intro buf path hb _ _
    rw [chunkGo, if_pos hb.2]
    rw [flushChunk_of_clean _ _ _ _ _ _ hb.1 hb.2]
    simp [joinAcc]
  | cons p rest ih =>
    obtain ⟨heading, sec⟩ := p
    intro buf path hb hcl hsm
    have hsec : Clean sec := hcl (heading, sec) (List.mem_cons_self _ _)
    have hbuf2 : Clean (buf ++ "\n\n" ++ sec) := Clean_append hb hsec
    have hJ : joinAcc buf (((heading, sec) :: rest).map Prod.snd) =
        joinAcc (buf ++ "\n\n" ++ sec) (rest.map Prod.snd) := rfl
    rw [hJ] at hsm
    have happ : approx_tokens (buf ++ "\n\n" ++ sec) < m :=
      lt_of_le_of_lt (approx_mono (joinAcc_len (rest.map Prod.snd) _)) hsm
    have hmax : ¬ (approx_tokens buf + approx_tokens sec > M) := by
      have h2 := approx_split buf sec hb.2
      omega
    have hmin : ¬ (approx_tokens (pyStrip (buf ++ "\n\n" ++ sec)) ≥ m) := by
      rw [pyStrip_append_clean hb hsec]
      omega
    rw [chunkGo]
    simp only [if_neg hb.2]
    simp only [if_neg hmax]
    try dsimp only
    simp only [if_neg hmin]
    try dsimp only
    rw [pyStrip_append_clean hb hsec, hJ]
    exact ih (buf ++ "\n\n" ++ sec) _ hbuf2
      (fun q hq => hcl q (List.mem_cons_of_mem _ hq)) hsm

/-- C9 counterexample: a non-empty section list totalling far fewer tokens
than `min_tok` for which the chunker emits NO passage — the single section
is whitespace-only, so the final flush strips it to empty and drops it. -/
theorem chunk_sections_drops_small_whitespace :
    chunk_sections [(("" : String), " ")] "u" "" "s" 250 900 = [] ∧
    approx_tokens " " < 250 ∧
    ([(("" : String), " ")] : List (String × String)) ≠ [] := by
  constructor
  · rfl
  · constructor
    · decide
    · decide

/-- C9 (amended): for every non-empty section list whose section texts are
non-empty and trim-stable, if the blank-line join of all the texts estimates
below `min_tok` (and `min_tok ≤ max_tok`), the chunker emits exactly one
passage containing all the sections joined by blank lines. -/
theorem chunk_sections_under_min (sections : List (String × String))
    (url title source : String) (m M : Nat)
    (hne : sections ≠ [])
    (hclean : ∀ p ∈ sections, Clean p.2)
    (hsmall : approx_tokens (pyJoin "\n\n" (sections.map Prod.snd)) < m)
    (hmM : m ≤ M) :
    (chunk_sections sections url title source m M).map Chunk.text =
      [pyJoin "\n\n" (sections.map Prod.snd)] := by
  cases sections with
  | nil => exact absurd rfl hne
  | cons p rest =>
    obtain ⟨h0, s0⟩ := p
    rw [chunk_sections, chunkGo]
    simp only [if_pos rfl]
    have hJ : pyJoin "\n\n" (((h0, s0) :: rest).map Prod.snd) =
        joinAcc s0 (rest.map Prod.snd) := by
      rw [joinAcc_eq_pyJoin]
      rfl
    rw [hJ] at hsmall ⊢
    exact chunkGo_under_min url title source m M hmM rest s0 _
      (hclean (h0, s0) (List.mem_cons_self _ _))
      (fun q hq => hclean q (List.mem_cons_of_mem _ hq)) hsmall

theorem chunk_sections_under_min_witness :
    (chunk_sections [(("" : String), "ab"), (("" : String), "cd")]
        "u" "" "s" 250 900).map Chunk.text =
      [pyJoin "\n\n" ([(("" : String), "ab"), (("" : String), "cd")].map Prod.snd)] :=
  chunk_sections_under_min [(("" : String), "ab"), (("" : String), "cd")]
    "u" "" "s" 250 900 (by decide)
    (by
      intro p hp
      rcases List.mem_cons.mp hp with h | h
      · subst h
        exact ⟨rfl, by decide⟩
      · rcases List.mem_cons.mp h with h2 | h2
        · subst h2
          exact ⟨rfl, by decide⟩
        · exact absurd h2 (List.not_mem_nil p))
    (by decide) (by decide)

/-! ## Character facts for the URL reassembly (claim C10) -/

/-- `Char` order reflected on code points. -/
theorem char_toNat_le_iff {a b : Char} : a.toNat ≤ b.toNat ↔ a ≤ b := by
  rw [Char.le_def]
  simp [UInt32.le_def, BitVec.le_def, Char.toNat, UInt32.toNat]

/-- `isUpper` on code points. -/
theorem isUpper_iff {c : Char} : c.isUpper = true ↔ 65 ≤ c.toNat ∧ c.toNat ≤ 90 := by
  simp [Char.isUpper, UInt32.le_def, BitVec.le_def, Char.toNat, UInt32.toNat]

/-- `isLower` on code points. -/
theorem isLower_iff {c : Char} : c.isLower = true ↔ 97 ≤ c.toNat ∧ c.toNat ≤ 122 := by
  simp [Char.isLower, UInt32.le_def, BitVec.le_def, Char.toNat, UInt32.toNat]

/-- `isAlpha` on code points. -/
theorem isAlpha_iff {c : Char} : c.isAlpha = true ↔
    (65 ≤ c.toNat ∧ c.toNat ≤ 90) ∨ (97 ≤ c.toNat ∧ c.toNat ≤ 122) := by
  simp [Char.isAlpha, isUpper_iff, isLower_iff]

/-- `isDigit` on code points. -/
theorem isDigit_iff {c : Char} : c.isDigit = true ↔ 48 ≤ c.toNat ∧ c.toNat ≤ 57 := by
  simp [Char.isDigit, UInt32.le_def, BitVec.le_def, Char.toNat, UInt32.toNat]

/-- `Char.ofNat` inverts `toNat` on valid code points. -/
theorem toNat_ofNat_valid {n : Nat} (h : n.isValidChar) : (Char.ofNat n).toNat = n := by
  simp [Char.ofNat, h]
  rfl

/-- Lowercasing an upper-case letter adds 32 to the code point. -/
theorem charLower_upper_toNat {c : Char} (h : 'A' ≤ c ∧ c ≤ 'Z') :
    (charLower c).toNat = c.toNat + 32 := by
  have h1 := char_toNat_le_iff.mpr h.1
  have h2 := char_toNat_le_iff.mpr h.2
  have hA : ('A' : Char).toNat = 65 := by decide
  have hZ : ('Z' : Char).toNat = 90 := by decide
  rw [hA] at h1
  rw [hZ] at h2
  have hv : (c.toNat + 32).isValidChar := by
    left
    omega
  rw [charLower, if_pos h, toNat_ofNat_valid hv]

/-- ASCII lowercasing is idempotent. -/
theorem charLower_idem (c : Char) : charLower (charLower c) = charLower c := by
  by_cases h : 'A' ≤ c ∧ c ≤ 'Z'
  · have ht := charLower_upper_toNat h
    have h2 := char_toNat_le_iff.mpr h.2
    have hZ : ('Z' : Char).toNat = 90 := by decide
    rw [hZ] at h2
    have h1 := char_toNat_le_iff.mpr h.1
    have hA : ('A' : Char).toNat = 65 := by decide
    rw [hA] at h1
    have hno : ¬ ('A' ≤ charLower c ∧ charLower c ≤ 'Z') := by
      intro hcc
      have h3 := char_toNat_le_iff.mpr hcc.2
      rw [hZ, ht] at h3
      omega
    conv_lhs => rw [charLower, if_neg hno]
  · have hc : charLower c = c := by rw [charLower, if_neg h]
    rw [hc, hc]

/-- Lowercasing preserves alphabetic characters. -/
theorem isAlpha_charLower {c : Char} (h : c.isAlpha = true) :
    (charLower c).isAlpha = true := by
  by_cases hu : 'A' ≤ c ∧ c ≤ 'Z'
  · have ht := charLower_upper_toNat hu
    have h1 := char_toNat_le_iff.mpr hu.1
    have h2 := char_toNat_le_iff.mpr hu.2
    have hA : ('A' : Char).toNat = 65 := by decide
    have hZ : ('Z' : Char).toNat = 90 := by decide
    rw [hA] at h1
    rw [hZ] at h2
    rw [isAlpha_iff, ht]
    right
    omega
  · have hc : charLower c = c := by rw [charLower, if_neg hu]
    rw [hc]
    exact h

/-- Lowercasing preserves scheme characters. -/
theorem isSchemeChar_charLower {c : Char} (h : isSchemeChar c = true) :
    isSchemeChar (charLower c) = true := by
  by_cases hu : 'A' ≤ c ∧ c ≤ 'Z'
  · have ha : c.isAlpha = true := by
      rw [isAlpha_iff]
      left
      have h1 := char_toNat_le_iff.mpr hu.1
      have h2 := char_toNat_le_iff.mpr hu.2
      have hA : ('A' : Char).toNat = 65 := by decide
      have hZ : ('Z' : Char).toNat = 90 := by decide
      rw [hA] at h1
      rw [hZ] at h2
      omega
    have h2 := isAlpha_charLower ha
    simp [isSchemeChar, h2]
  · have hc : charLower c = c := by rw [charLower, if_neg hu]
    rw [hc]
    exact h

/-- Scheme characters are printable and are none of `:`, tab, CR, LF, `?`,
`/`, `#`. -/
theorem isSchemeChar_facts {c : Char} (h : isSchemeChar c = true) :
    32 < c.toNat ∧ c ≠ ':' ∧ c ≠ '\t' ∧ c ≠ '\r' ∧ c ≠ '\n' ∧
      c ≠ '?' ∧ c ≠ '/' ∧ c ≠ '#' := by
  have h32 : 32 < c.toNat := by
    rw [isSchemeChar] at h
    simp only [Bool.or_eq_true, beq_iff_eq] at h
    rcases h with ((((ha | hd) | hp) | hm) | hdot)
    · rcases isAlpha_iff.mp ha with h1 | h1 <;> omega
    · have := isDigit_iff.mp hd
      omega
    · rw [hp]
      decide
    · rw [hm]
      decide
    · rw [hdot]
      decide
  refine ⟨h32, ?_, ?_, ?_, ?_, ?_, ?_, ?_⟩ <;>
    (intro hc; rw [hc] at h; exact absurd h (by decide))

/-! ## List facts for the URL reassembly -/

/-- `takeWhile` walks through a prefix on which the predicate holds. -/
theorem takeWhile_append_of_all {p : Char → Bool} : ∀ {l1 : List Char}
    (l2 : List Char), (∀ a ∈ l1, p a = true) →
    (l1 ++ l2).takeWhile p = l1 ++ l2.takeWhile p := by
  intro l1
  induction l1 with
  | nil => intro l2 _; rfl
  | cons a t ih =>
    intro l2 h
    have ha := h a (List.mem_cons_self _ _)
    simp only [List.cons_append, List.takeWhile_cons, ha, if_true]
    rw [ih l2 (fun x hx => h x (List.mem_cons_of_mem _ hx))]

/-- `dropWhile` walks through a prefix on which the predicate holds. -/
theorem dropWhile_append_of_all {p : Char → Bool} : ∀ {l1 : List Char}
    (l2 : List Char), (∀ a ∈ l1, p a = true) →
    (l1 ++ l2).dropWhile p = l2.dropWhile p := by
  intro l1
  induction l1 with
  | nil => intro l2 _; rfl
  | cons a t ih =>
    intro l2 h
    have ha := h a (List.mem_cons_self _ _)
    simp only [List.cons_append, List.dropWhile_cons, ha, if_true]
    exact ih l2 (fun x hx => h x (List.mem_cons_of_mem _ hx))

/-- `takeWhile` of an all-good list. -/
theorem takeWhile_eq_self_of_all {p : Char → Bool} : ∀ {l : List Char},
    (∀ a ∈ l, p a = true) → l.takeWhile p = l := by
  intro l
  induction l with
  | nil => intro _; rfl
  | cons a t ih =>
    intro h
    have ha := h a (List.mem_cons_self _ _)
    simp only [List.takeWhile_cons, ha, if_true]
    rw [ih (fun x hx => h x (List.mem_cons_of_mem _ hx))]

/-- `dropWhile` of an all-good list. -/
theorem dropWhile_eq_nil_of_all {p : Char → Bool} : ∀ {l : List Char},
    (∀ a ∈ l, p a = true) → l.dropWhile p = [] := by
  intro l
  induction l with
  | nil => intro _; rfl
  | cons a t ih =>
    intro h
    have ha := h a (List.mem_cons_self _ _)
    simp only [List.dropWhile_cons, ha, if_true]
    exact ih (fun x hx => h x (List.mem_cons_of_mem _ hx))

/-- `takeWhile` stops inside a prefix containing a failing element. -/
theorem takeWhile_append_of_bad {p : Char → Bool} : ∀ {l1 : List Char}
    (l2 : List Char) {b : Char}, b ∈ l1 → p b = false →
    (l1 ++ l2).takeWhile p = l1.takeWhile p := by
  intro l1
  induction l1 with
  | nil => intro l2 b hb _; exact absurd hb (List.not_mem_nil b)
  | cons a t ih =>
    intro l2 b hb hpb
    by_cases hpa : p a = true
    · have hbt : b ∈ t := by
        rcases List.mem_cons.mp hb with h1 | h1
        · subst h1
          rw [hpa] at hpb
          cases hpb
        · exact h1
      simp only [List.cons_append, List.takeWhile_cons, hpa, if_true]
      rw [ih l2 hbt hpb]
    · have hpa2 : p a = false := Bool.eq_false_iff.mpr hpa
      simp only [List.cons_append, List.takeWhile_cons, hpa2]
      simp

/-- Elements of a `takeWhile` satisfy the predicate. -/
theorem mem_takeWhile_pred {p : Char → Bool} : ∀ {l : List Char} {a : Char},
    a ∈ l.takeWhile p → p a = true := by
  intro l
  induction l with
  | nil => intro a ha; exact absurd ha (List.not_mem_nil a)
  | cons x t ih =>
    intro a ha
    by_cases hx : p x = true
    · rw [List.takeWhile_cons, if_pos hx] at ha
      rcases List.mem_cons.mp ha with h1 | h1
      · rw [h1]
        exact hx
      · exact ih h1
    · rw [List.takeWhile_cons, if_neg hx] at ha
      exact absurd ha (List.not_mem_nil a)

/-- `contains = false` is non-membership. -/
theorem contains_eq_false_iff {l : List Char} {c : Char} :
    l.contains c = false ↔ c ∉ l := by
  rw [← Bool.not_eq_true]
  constructor
  · intro h hc
    exact h (List.elem_iff.mpr hc)
  · intro h hc
    exact h (List.elem_iff.mp hc)

/-- Splitting at the first occurrence of a contained character and the
reconstruction of the original list. -/
theorem dropWhile_ne_cons {c : Char} : ∀ {l : List Char}, c ∈ l →
    ∃ t, l.dropWhile (fun x => x != c) = c :: t ∧
      l.takeWhile (fun x => x != c) ++ c :: t = l ∧
      (l.takeWhile (fun x => x != c)).length < l.length ∧
      c ∉ l.takeWhile (fun x => x != c) := by
  intro l
  induction l with
  | nil => intro h; exact absurd h (List.not_mem_nil c)
  | cons a t ih =>
    intro h
    by_cases hac : a = c
    · subst hac
      refine ⟨t, ?_, ?_, ?_, ?_⟩
      · simp [List.dropWhile_cons]
      · simp [List.takeWhile_cons]
      · simp [List.takeWhile_cons]
      · simp [List.takeWhile_cons]
    · have hat : (a != c) = true := bne_iff_ne.mpr hac
      have hct : c ∈ t := by
        rcases List.mem_cons.mp h with h1 | h1
        · exact absurd h1.symm hac
        · exact h1
      obtain ⟨t', h1, h2, h3, h4⟩ := ih hct
      refine ⟨t', ?_, ?_, ?_, ?_⟩
      · rw [List.dropWhile_cons, if_pos hat]
        exact h1
      · rw [List.takeWhile_cons, if_pos hat, List.cons_append, h2]
      · rw [List.takeWhile_cons, if_pos hat]
        simpa using h3
      · rw [List.takeWhile_cons, if_pos hat]
        intro hm
        rcases List.mem_cons.mp hm with h5 | h5
        · exact hac h5.symm
        · exact h4 h5

/-- `splitOnce` when the character is absent. -/
theorem splitOnce_of_not_contains {l : List Char} {c : Char} (h : c ∉ l) :
    splitOnce l c = (l, []) := by
  have hall : ∀ a ∈ l, (a != c) = true := by
    intro a ha
    exact bne_iff_ne.mpr (fun he => h (he ▸ ha))
  rw [splitOnce, takeWhile_eq_self_of_all hall, dropWhile_eq_nil_of_all hall]
  rfl

/-- `splitOnce` splits at the first occurrence. -/
theorem splitOnce_append {l1 l2 : List Char} {c : Char} (h : c ∉ l1) :
    splitOnce (l1 ++ c :: l2) c = (l1, l2) := by
  have hall : ∀ a ∈ l1, (a != c) = true := by
    intro a ha
    exact bne_iff_ne.mpr (fun he => h (he ▸ ha))
  rw [splitOnce, takeWhile_append_of_all _ hall, dropWhile_append_of_all _ hall]
  simp [List.takeWhile_cons, List.dropWhile_cons]

/-- The head of a `dropWhile` fails the predicate. -/
theorem dropWhile_head_false {p : Char → Bool} : ∀ {l : List Char} {a : Char}
    {t : List Char}, l.dropWhile p = a :: t → p a = false := by
  intro l
  induction l with
  | nil => intro a t h; cases h
  | cons x xs ih =>
    intro a t h
    by_cases hx : p x = true
    · rw [List.dropWhile_cons, if_pos hx] at h
      exact ih h
    · have hx2 : p x = false := Bool.eq_false_iff.mpr hx
      rw [List.dropWhile_cons, hx2] at h
      simp at h
      rw [← h.1]
      exact hx2

/-- Anatomy of a successful `splitScheme`. -/
theorem splitScheme_eq_some {l s rest : List Char}
    (h : splitScheme l = some (s, rest)) :
    s = (l.takeWhile fun c => c != ':').map charLower ∧
    (l.takeWhile fun c => c != ':').all isSchemeChar = true ∧
    0 < (l.takeWhile fun c => c != ':').length ∧
    (∃ c0 t, l = c0 :: t ∧ c0.isAlpha = true) ∧
    rest = l.drop ((l.takeWhile fun c => c != ':').length + 1) := by
  cases l with
  | nil => cases h
  | cons c0 t =>
    simp only [splitScheme] at h
    split at h
    · next hcond =>
      obtain ⟨h1, h2⟩ := Prod.mk.injEq .. ▸ Option.some.inj h
      exact ⟨h1.symm, hcond.2.2.2, hcond.2.1, ⟨c0, t, rfl, hcond.2.2.1⟩, h2.symm⟩
    · cases h

/-- Re-parsing a well-formed scheme in front of a colon. -/
theorem splitScheme_reassemble {s rest : List Char}
    (hhead : ∃ c0 t, s = c0 :: t ∧ c0.isAlpha = true)
    (hall : s.all isSchemeChar = true)
    (hlow : s.map charLower = s)
    (hnc : ':' ∉ s) :
    splitScheme (s ++ ':' :: rest) = some (s, rest) := by
  obtain ⟨c0, t, hs, halpha⟩ := hhead
  subst hs
  have hpre : ((c0 :: t) ++ ':' :: rest).takeWhile (fun c => c != ':') = c0 :: t := by
    rw [takeWhile_append_of_all _ (fun a ha => bne_iff_ne.mpr
      (fun he => hnc (by rw [he] at ha; exact ha)))]
    simp [List.takeWhile_cons]
  simp only [List.cons_append] at hpre ⊢
  rw [splitScheme]
  simp only [hpre]
  rw [if_pos]
  · have hdrop : (c0 :: (t ++ ':' :: rest)).drop ((c0 :: t).length + 1) = rest := by
      have he : c0 :: (t ++ ':' :: rest) = (c0 :: (t ++ [':'])) ++ rest := by
        simp
      have hl : (c0 :: t).length + 1 = (c0 :: (t ++ [':'])).length := by
        simp
      rw [he, hl, List.drop_left]
    rw [hdrop, hlow]
  · refine ⟨?_, ?_, halpha, hall⟩
    · simp only [List.length_cons, List.length_append]
      omega
    · simp

/-- `splitScheme` fails when the first character is not alphabetic. -/
theorem splitScheme_none_head {l : List Char}
    (h : ∀ c0 t, l = c0 :: t → c0.isAlpha = false) : splitScheme l = none := by
  cases l with
  | nil => rfl
  | cons c0 t =>
    have ha := h c0 t rfl
    simp only [splitScheme]
    rw [if_neg]
    intro hcond
    rw [ha] at hcond
    exact Bool.false_ne_true hcond.2.2.1

/-- A prefix of a scheme-free URL, possibly followed by a query part, is
still scheme-free. -/
theorem splitScheme_none_prefix {P l0 qtail : List Char}
    (hpre : P <+: l0) (hPne : P ≠ [])
    (hnone : splitScheme l0 = none)
    (hq : qtail = [] ∨ ∃ q, qtail = '?' :: q) :
    splitScheme (P ++ qtail) = none := by
  obtain ⟨t0, ht0⟩ := hpre
  obtain ⟨c0, P', hP⟩ := List.exists_cons_of_ne_nil hPne
  subst hP
  subst ht0
  simp only [List.cons_append]
  rw [splitScheme]
  rw [if_neg]
  intro hcond
  obtain ⟨hlen, hpos, halpha, hall⟩ := hcond
  have hcolon : ':' ∈ c0 :: P' := by
    by_contra hnc
    have hallne : ∀ a ∈ c0 :: P', (a != ':') = true :=
      fun a ha => bne_iff_ne.mpr (fun he => hnc (he ▸ ha))
    rcases hq with h1 | ⟨q, h1⟩ <;> subst h1
    · have hpv : (c0 :: (P' ++ [])).takeWhile (fun c => c != ':') = c0 :: P' := by
        have h5 := takeWhile_append_of_all ([] : List Char) hallne
        simp only [List.cons_append] at h5
        rw [h5]
        simp [takeWhile_eq_self_of_all, List.takeWhile_nil]
      rw [hpv] at hlen
      simp at hlen
    · have hpv : (c0 :: (P' ++ '?' :: q)).takeWhile (fun c => c != ':') =
          (c0 :: P') ++ ('?' :: q).takeWhile (fun c => c != ':') := by
        have h5 := takeWhile_append_of_all ('?' :: q) hallne
        simp only [List.cons_append] at h5
        exact h5
      rw [hpv] at hall
      have hmem : '?' ∈ (c0 :: P') ++ ('?' :: q).takeWhile (fun c => c != ':') := by
        apply List.mem_append_right
        rw [List.takeWhile_cons]
        simp
      have := List.all_eq_true.mp hall '?' hmem
      exact absurd this (by decide)
  have hbad : ((':' : Char) != ':') = false := by decide
  have hpv2 : (c0 :: (P' ++ qtail)).takeWhile (fun c => c != ':') =
      (c0 :: P').takeWhile (fun c => c != ':') := by
    have h5 : ((c0 :: P') ++ qtail).takeWhile (fun c => c != ':') =
        (c0 :: P').takeWhile (fun c => c != ':') :=
      takeWhile_append_of_bad qtail hcolon hbad
    simp only [List.cons_append] at h5
    exact h5
  have hpv0 : (c0 :: (P' ++ t0)).takeWhile (fun c => c != ':') =
      (c0 :: P').takeWhile (fun c => c != ':') := by
    have h5 : ((c0 :: P') ++ t0).takeWhile (fun c => c != ':') =
        (c0 :: P').takeWhile (fun c => c != ':') :=
      takeWhile_append_of_bad t0 hcolon hbad
    simp only [List.cons_append] at h5
    exact h5
  obtain ⟨tt, _, _, hlt, _⟩ := dropWhile_ne_cons hcolon
  simp only [List.cons_append] at hnone
  rw [splitScheme] at hnone
  rw [if_pos] at hnone
  · cases hnone
  · refine ⟨?_, ?_, halpha, ?_⟩
    · rw [hpv0]
      simp only [List.length_cons, List.length_append]
      have := hlt
      simp only [List.length_cons] at this
      omega
    · rw [hpv0, ← hpv2]
      exact hpos
    · rw [hpv0, ← hpv2]
      exact hall

/-- Anatomy of a successful `splitNetloc`. -/
theorem splitNetloc_eq_some {l n rest : List Char}
    (h : splitNetloc l = some (n, rest)) :
    (∀ c ∈ n, nlDelim c = false) ∧ (n.contains '[') = (n.contains ']') ∧
    ((∃ tl, l = '/' :: '/' :: tl ∧ n = tl.takeWhile (fun c => !nlDelim c) ∧
        rest = tl.dropWhile (fun c => !nlDelim c)) ∨
     (l.take 2 ≠ ['/', '/'] ∧ n = [] ∧ rest = l)) := by
  rw [splitNetloc.eq_def] at h
  split at h
  · next tl =>
    dsimp only at h
    split at h
    · cases h
    · next hbr =>
      obtain ⟨h1, h2⟩ := Prod.mk.injEq .. ▸ Option.some.inj h
      subst h1
      subst h2
      refine ⟨?_, ?_, Or.inl ⟨tl, rfl, rfl, rfl⟩⟩
      · intro c hc
        have := mem_takeWhile_pred hc
        simpa using this
      · by_contra hne
        exact hbr (fun he => hne (by rw [he]))
  · next hno =>
    obtain ⟨h1, h2⟩ := Prod.mk.injEq .. ▸ Option.some.inj h
    subst h1
    subst h2
    refine ⟨fun c hc => absurd hc (List.not_mem_nil c), rfl, Or.inr ⟨?_, rfl, rfl⟩⟩
    intro ht
    cases l with
    | nil => cases ht
    | cons a t =>
      cases t with
      | nil => cases ht
      | cons b t2 =>
        simp only [List.take, List.cons.injEq] at ht
        exact hno t2 (by rw [ht.1, ht.2.1])

/-- Re-parsing a well-formed netloc after `//`. -/
theorem splitNetloc_reassemble {n rest : List Char}
    (hn : ∀ c ∈ n, nlDelim c = false)
    (hbr : (n.contains '[') = (n.contains ']'))
    (hrest : rest = [] ∨ ∃ c t, rest = c :: t ∧ nlDelim c = true) :
    splitNetloc ('/' :: '/' :: (n ++ rest)) = some (n, rest) := by
  have hall : ∀ c ∈ n, (!nlDelim c) = true := by
    intro c hc
    rw [hn c hc]
    rfl
  have htw : (n ++ rest).takeWhile (fun c => !nlDelim c) = n := by
    rcases hrest with h1 | ⟨c, t, h1, hc⟩ <;> subst h1
    · rw [List.append_nil]
      exact takeWhile_eq_self_of_all hall
    · rw [takeWhile_append_of_all _ hall, List.takeWhile_cons]
      simp [hc]
  have hdw : (n ++ rest).dropWhile (fun c => !nlDelim c) = rest := by
    rcases hrest with h1 | ⟨c, t, h1, hc⟩ <;> subst h1
    · rw [List.append_nil]
      exact dropWhile_eq_nil_of_all hall
    · rw [dropWhile_append_of_all _ hall, List.dropWhile_cons]
      simp [hc]
  rw [splitNetloc]
  simp only [htw, hdw]
  rw [if_neg]
  rw [hbr]
  exact fun hh => hh rfl

/-- `splitNetloc` is the identity without a leading `//`. -/
theorem splitNetloc_no_slashslash {l : List Char} (h : l.take 2 ≠ ['/', '/']) :
    splitNetloc l = some ([], l) := by
  rw [splitNetloc.eq_def]
  split
  · next tl =>
    exact absurd rfl h
  · rfl

/-- The sanitiser is the identity on a list that needs no sanitising. -/
theorem sanitizeUrl_eq_self {l : List Char}
    (hhead : l = [] ∨ ∃ c t, l = c :: t ∧ 32 < c.toNat)
    (hfil : ∀ c ∈ l, ¬(c = '\t' ∨ c = '\r' ∨ c = '\n')) :
    sanitizeUrl l = l := by
  rw [sanitizeUrl]
  have hdrop : l.dropWhile (fun c => decide (c.toNat ≤ 32)) = l := by
    rcases hhead with h | ⟨c, t, hl, hc⟩
    · rw [h]
      rfl
    · subst hl
      have hd : (decide (c.toNat ≤ 32)) = false := decide_eq_false (by omega)
      simp [List.dropWhile_cons, hd]
  rw [hdrop]
  rw [List.filter_eq_self.mpr]
  intro a ha
  have h2 := hfil a ha
  push_neg at h2
  simp [h2.1, h2.2.1, h2.2.2]

/-- The first character surviving the sanitiser is printable. -/
theorem sanitizeUrl_head {input : List Char} {c : Char} {t : List Char}
    (h : sanitizeUrl input = c :: t) : 32 < c.toNat := by
  rw [sanitizeUrl] at h
  cases hd : input.dropWhile (fun c => decide (c.toNat ≤ 32)) with
  | nil => rw [hd] at h; cases h
  | cons a d =>
    have ha := dropWhile_head_false hd
    have ha2 : ¬ (a.toNat ≤ 32) := by
      intro hle
      rw [decide_eq_true hle] at ha
      cases ha
    have hfa : (!(a == '\t' || a == '\r' || a == '\n')) = true := by
      have h9 : a ≠ '\t' := fun he => ha2 (by rw [he]; decide)
      have h13 : a ≠ '\r' := fun he => ha2 (by rw [he]; decide)
      have h10 : a ≠ '\n' := fun he => ha2 (by rw [he]; decide)
      simp [h9, h13, h10]
    rw [hd, List.filter_cons, if_pos hfa] at h
    have : c = a := (List.cons.injEq .. ▸ h).1.symm
    subst this
    omega

/-- Characters surviving the sanitiser are not tab, CR or LF. -/
theorem sanitizeUrl_mem {input : List Char} {c : Char}
    (h : c ∈ sanitizeUrl input) : ¬(c = '\t' ∨ c = '\r' ∨ c = '\n') := by
  rw [sanitizeUrl] at h
  have h2 := List.of_mem_filter h
  intro hc
  rcases hc with h1 | h1 | h1 <;> (subst h1; simp at h2)

/-- `contains` is membership. -/
theorem contains_eq_true_iff {l : List Char} {c : Char} :
    l.contains c = true ↔ c ∈ l := List.elem_iff

/-- The last `/`-segment of a list ending in a slash-free tail. -/
theorem lastseg_append {y after : List Char} (h : '/' ∉ after) :
    ((y ++ '/' :: after).reverse.takeWhile fun c => c != '/').reverse = after := by
  have hall : ∀ a ∈ after.reverse, (a != '/') = true := by
    intro a ha
    exact bne_iff_ne.mpr (fun he => h (by rw [← he]; exact (List.mem_reverse).mp ha))
  have hrev : (y ++ '/' :: after).reverse = after.reverse ++ '/' :: y.reverse := by
    simp
  rw [hrev, takeWhile_append_of_all _ hall, List.takeWhile_cons]
  simp

/-- The last `/`-segment of a slash-free list is the list itself. -/
theorem lastseg_no_slash {p : List Char} (h : '/' ∉ p) :
    (p.reverse.takeWhile fun c => c != '/').reverse = p := by
  have hall : ∀ a ∈ p.reverse, (a != '/') = true := by
    intro a ha
    exact bne_iff_ne.mpr (fun he => h (by rw [← he]; exact (List.mem_reverse).mp ha))
  rw [takeWhile_eq_self_of_all hall, List.reverse_reverse]

/-- A list containing a slash splits as a prefix ending in `/` followed by
its slash-free last segment. -/
theorem lastseg_decomp {p : List Char} (h : '/' ∈ p) :
    ∃ pre, p = (pre ++ ['/']) ++ (p.reverse.takeWhile fun c => c != '/').reverse ∧
      '/' ∉ (p.reverse.takeWhile fun c => c != '/').reverse := by
  have hrev : '/' ∈ p.reverse := (List.mem_reverse).mpr h
  obtain ⟨t, hdw, hrec, _, _⟩ := dropWhile_ne_cons hrev
  refine ⟨t.reverse, ?_, ?_⟩
  · conv_lhs => rw [← List.reverse_reverse p, ← hrec]
    simp
  · intro hm
    have := mem_takeWhile_pred ((List.mem_reverse).mp hm)
    simp at this

/-- Taking everything but the last segment of a decomposed list. -/
theorem take_sub_append (pre after : List Char) :
    (pre ++ after).take ((pre ++ after).length - after.length) = pre := by
  have hl : (pre ++ after).length - after.length = pre.length := by
    simp
  rw [hl, List.take_left]

/-- The params re-join after a split of a `;`-containing path either
reconstructs the path exactly or leaves a path whose last segment is
`;`-free. -/
theorem pySplit_master {p : List Char} (hp : ';' ∈ p) :
    pyJoinparams (pySplitparams p).1 (pySplitparams p).2 = p ∨
    ';' ∉ ((pyJoinparams (pySplitparams p).1
        (pySplitparams p).2).reverse.takeWhile fun c => c != '/').reverse := by
  by_cases hslash : p.contains '/' = true
  · obtain ⟨pre, hdecomp, hns⟩ := lastseg_decomp (contains_eq_true_iff.mp hslash)
    rw [pySplitparams, if_pos hslash]
    set A := (p.reverse.takeWhile fun c => c != '/').reverse with hA
    by_cases hsa : ';' ∈ A
    · obtain ⟨t, hdw, hrec, _, hnm⟩ := dropWhile_ne_cons hsa
      rw [if_pos (contains_eq_true_iff.mpr hsa), hdw]
      simp only [List.drop_succ_cons, List.drop_zero]
      have htake : p.take (p.length - A.length) = pre ++ ['/'] := by
        conv_lhs => rw [hdecomp]
        exact take_sub_append (pre ++ ['/']) A
      by_cases ht : t = []
      · subst ht
        right
        rw [pyJoinparams, if_neg (fun hh => hh rfl)]
        rw [htake]
        simp only [List.append_assoc, List.singleton_append]
        rw [lastseg_append]
        · intro hm
          exact hnm hm
        · intro hm
          exact hns ((List.takeWhile_prefix _).subset hm)
      · left
        rw [pyJoinparams, if_pos ht]
        rw [htake, List.append_assoc]
        rw [hrec]
        exact hdecomp.symm
    · rw [if_neg (fun hh => hsa (contains_eq_true_iff.mp hh))]
      left
      rw [pyJoinparams, if_neg (fun hh => hh rfl)]
  · have hnsp : '/' ∉ p := fun hm => hslash (contains_eq_true_iff.mpr hm)
    obtain ⟨t, hdw, hrec, _, hnm⟩ := dropWhile_ne_cons hp
    rw [pySplitparams, if_neg hslash, hdw]
    simp only [List.drop_succ_cons, List.drop_zero]
    by_cases ht : t = []
    · subst ht
      right
      rw [pyJoinparams, if_neg (fun hh => hh rfl)]
      rw [lastseg_no_slash]
      · exact hnm
      · intro hm
        exact hnsp ((List.takeWhile_prefix _).subset hm)
    · left
      rw [pyJoinparams, if_pos ht]
      exact hrec

/-- A path whose last segment is `;`-free is stable under the params
split-and-rejoin. -/
theorem pj_of_lastseg {y : List Char}
    (h : ';' ∉ (y.reverse.takeWhile fun c => c != '/').reverse) :
    pyJoinparams (pySplitparams y).1 (pySplitparams y).2 = y := by
  by_cases hslash : y.contains '/' = true
  · rw [pySplitparams, if_pos hslash]
    rw [if_neg (fun hh => h (contains_eq_true_iff.mp hh))]
    rw [pyJoinparams, if_neg (fun hh => hh rfl)]
  · have hnsp : '/' ∉ y := fun hm => hslash (contains_eq_true_iff.mpr hm)
    have hny : ';' ∉ y := by
      rw [lastseg_no_slash hnsp] at h
      exact h
    have hall : ∀ a ∈ y, (a != ';') = true :=
      fun a ha => bne_iff_ne.mpr (fun he => hny (by rw [he] at ha; exact ha))
    rw [pySplitparams, if_neg hslash]
    rw [takeWhile_eq_self_of_all hall, dropWhile_eq_nil_of_all hall]
    rw [pyJoinparams]
    rw [if_neg (fun hh => hh rfl)]

/-- Prepending a slash preserves a `;`-free last segment. -/
theorem lastseg_cons_slash {y : List Char}
    (h : ';' ∉ (y.reverse.takeWhile fun c => c != '/').reverse) :
    ';' ∉ (('/' :: y).reverse.takeWhile fun c => c != '/').reverse := by
  by_cases hslash : '/' ∈ y
  · obtain ⟨pre, hdecomp, hns⟩ := lastseg_decomp hslash
    set A := (y.reverse.takeWhile fun c => c != '/').reverse with hA
    have h2 : '/' :: y = ('/' :: pre) ++ '/' :: A := by
      rw [hdecomp]
      simp
    rw [h2, lastseg_append hns]
    exact h
  · have h2 : '/' :: y = ([] : List Char) ++ '/' :: y := rfl
    rw [h2, lastseg_append hslash]
    rw [lastseg_no_slash hslash] at h
    exact h

/-- Prepending a slash to a split-stable `;`-containing path keeps the
split-and-rejoin stable. -/
theorem pj_slash {x : List Char}
    (hx : pyJoinparams (pySplitparams x).1 (pySplitparams x).2 = x)
    (hsemi : ';' ∈ x) :
    pyJoinparams (pySplitparams ('/' :: x)).1 (pySplitparams ('/' :: x)).2 =
      '/' :: x := by
  have hslash2 : ('/' :: x).contains '/' = true :=
    contains_eq_true_iff.mpr (List.mem_cons_self _ _)
  by_cases hslash : '/' ∈ x
  · obtain ⟨pre, hdecomp, hns⟩ := lastseg_decomp hslash
    set A := (x.reverse.takeWhile fun c => c != '/').reverse with hA
    have h2 : '/' :: x = ('/' :: pre) ++ '/' :: A := by
      rw [hdecomp]
      simp
    rw [pySplitparams, if_pos hslash2]
    have hA2 : (('/' :: x).reverse.takeWhile fun c => c != '/').reverse = A := by
      rw [h2, lastseg_append hns]
    rw [hA2]
    by_cases hsa : ';' ∈ A
    · obtain ⟨t, hdw, hrec, _, hnm⟩ := dropWhile_ne_cons hsa
      rw [if_pos (contains_eq_true_iff.mpr hsa), hdw]
      simp only [List.drop_succ_cons, List.drop_zero]
      have ht : t ≠ [] := by
        intro ht0
        subst ht0
        rw [pySplitparams, if_pos (contains_eq_true_iff.mpr hslash), ← hA,
          if_pos (contains_eq_true_iff.mpr hsa), hdw] at hx
        simp only [List.drop_succ_cons, List.drop_zero] at hx
        rw [pyJoinparams, if_neg (fun hh => hh rfl)] at hx
        have hlen := congrArg List.length hx
        have htake : x.take (x.length - A.length) = pre ++ ['/'] := by
          conv_lhs => rw [hdecomp]
          exact take_sub_append (pre ++ ['/']) A
        rw [htake] at hlen
        obtain ⟨_, _, hlt, _⟩ := dropWhile_ne_cons hsa
        have hlenx := congrArg List.length hdecomp
        simp only [List.length_append, List.length_cons] at hlen hlenx hlt
        omega
      rw [pyJoinparams, if_pos ht]
      have h2b : '/' :: x = (('/' :: pre) ++ ['/']) ++ A := by
        rw [h2]
        simp
      have htake2 : ('/' :: x).take (('/' :: x).length - A.length) =
          ('/' :: pre) ++ ['/'] := by
        conv_lhs => rw [h2b]
        exact take_sub_append (('/' :: pre) ++ ['/']) A
      rw [htake2, List.append_assoc]
      rw [hrec]
      exact h2b.symm
    · rw [if_neg (fun hh => hsa (contains_eq_true_iff.mp hh))]
      rw [pyJoinparams, if_neg (fun hh => hh rfl)]
  · have hA3 : (('/' :: x).reverse.takeWhile fun c => c != '/').reverse = x := by
      have h2 : '/' :: x = ([] : List Char) ++ '/' :: x := rfl
      rw [h2, lastseg_append hslash]
    rw [pySplitparams, if_pos hslash2, hA3]
    obtain ⟨t, hdw, hrec, _, hnm⟩ := dropWhile_ne_cons hsemi
    rw [if_pos (contains_eq_true_iff.mpr hsemi), hdw]
    simp only [List.drop_succ_cons, List.drop_zero]
    have ht : t ≠ [] := by
      intro ht0
      subst ht0
      have hnsl : ¬ (x.contains '/' = true) := by
        rw [contains_eq_false_iff.mpr hslash]
        exact Bool.false_ne_true
      rw [pySplitparams, if_neg hnsl, hdw] at hx
      simp only [List.drop_succ_cons, List.drop_zero] at hx
      rw [pyJoinparams, if_neg (fun hh => hh rfl)] at hx
      have hlen := congrArg List.length hx
      have hlen2 := congrArg List.length hrec
      simp only [List.length_append, List.length_cons] at hlen hlen2
      omega
    rw [pyJoinparams, if_pos ht]
    have htake3 : ('/' :: x).take (('/' :: x).length - x.length) = ['/'] := by
      have h2 : '/' :: x = ['/'] ++ x := rfl
      conv_lhs => rw [h2]
      exact take_sub_append ['/'] x
    rw [htake3]
    rw [List.append_assoc, List.singleton_append, hrec]

/-- The path that `norm_url` re-joins is a prefix of the parsed path. -/
theorem up_pj_prefix (sch n p q f : List Char) :
    pyJoinparams (urlparseParams ⟨sch, n, p, q, f⟩).1
      (urlparseParams ⟨sch, n, p, q, f⟩).2 <+: p := by
  rw [urlparseParams]
  by_cases hcond : uses_params.contains sch = true ∧ p.contains ';' = true
  · rw [if_pos hcond]
    have hp : ';' ∈ p := contains_eq_true_iff.mp hcond.2
    by_cases hslash : p.contains '/' = true
    · obtain ⟨pre, hdecomp, hns⟩ := lastseg_decomp (contains_eq_true_iff.mp hslash)
      rw [pySplitparams, if_pos hslash]
      set A := (p.reverse.takeWhile fun c => c != '/').reverse with hA
      by_cases hsa : ';' ∈ A
      · obtain ⟨t, hdw, hrec, _, _⟩ := dropWhile_ne_cons hsa
        rw [if_pos (contains_eq_true_iff.mpr hsa), hdw]
        simp only [List.drop_succ_cons, List.drop_zero]
        have htake : p.take (p.length - A.length) = pre ++ ['/'] := by
          conv_lhs => rw [hdecomp]
          exact take_sub_append (pre ++ ['/']) A
        by_cases ht : t = []
        · subst ht
          rw [pyJoinparams, if_neg (fun hh => hh rfl), htake]
          refine ⟨';' :: [], ?_⟩
          rw [List.append_assoc, List.append_assoc, hrec, ← List.append_assoc]
          exact hdecomp.symm
        · rw [pyJoinparams, if_pos ht, htake]
          have heq : ((pre ++ ['/']) ++ A.takeWhile (fun x => x != ';')) ++
              ';' :: t = p := by
            rw [List.append_assoc, hrec]
            exact hdecomp.symm
          rw [heq]
      · rw [if_neg (fun hh => hsa (contains_eq_true_iff.mp hh))]
        rw [pyJoinparams, if_neg (fun hh => hh rfl)]
    · have hnsl : ¬ (p.contains '/' = true) := by
        intro hh
        exact hslash hh
      rw [pySplitparams, if_neg hnsl]
      obtain ⟨t, hdw, hrec, _, _⟩ := dropWhile_ne_cons hp
      rw [hdw]
      simp only [List.drop_succ_cons, List.drop_zero]
      by_cases ht : t = []
      · subst ht
        rw [pyJoinparams, if_neg (fun hh => hh rfl)]
        exact List.takeWhile_prefix _
      · rw [pyJoinparams, if_pos ht, hrec]
  · rw [if_neg hcond]
    rw [pyJoinparams, if_neg (fun hh => hh rfl)]

/-- The re-joined path is stable under a second parse-and-rejoin with the
same scheme. -/
theorem up_pj_stable (sch p n q f n2 q2 f2 : List Char) :
    pyJoinparams
      (urlparseParams ⟨sch, n2,
        pyJoinparams (urlparseParams ⟨sch, n, p, q, f⟩).1
          (urlparseParams ⟨sch, n, p, q, f⟩).2, q2, f2⟩).1
      (urlparseParams ⟨sch, n2,
        pyJoinparams (urlparseParams ⟨sch, n, p, q, f⟩).1
          (urlparseParams ⟨sch, n, p, q, f⟩).2, q2, f2⟩).2 =
    pyJoinparams (urlparseParams ⟨sch, n, p, q, f⟩).1
      (urlparseParams ⟨sch, n, p, q, f⟩).2 := by
  by_cases hcond : uses_params.contains sch = true ∧ p.contains ';' = true
  · have hP : pyJoinparams (urlparseParams ⟨sch, n, p, q, f⟩).1
        (urlparseParams ⟨sch, n, p, q, f⟩).2 =
        pyJoinparams (pySplitparams p).1 (pySplitparams p).2 := by
      rw [urlparseParams, if_pos hcond]
    rw [hP]
    set P := pyJoinparams (pySplitparams p).1 (pySplitparams p).2 with hPdef
    rw [urlparseParams]
    by_cases hc2 : uses_params.contains sch = true ∧ P.contains ';' = true
    · rw [if_pos hc2]
      rcases pySplit_master (contains_eq_true_iff.mp hcond.2) with h | h
      · rw [hPdef, h]
        exact h
      · rw [hPdef]
        exact pj_of_lastseg h
    · rw [if_neg hc2]
      rw [pyJoinparams, if_neg (fun hh => hh rfl)]
  · have hP : pyJoinparams (urlparseParams ⟨sch, n, p, q, f⟩).1
        (urlparseParams ⟨sch, n, p, q, f⟩).2 = p := by
      rw [urlparseParams, if_neg hcond]
      rw [pyJoinparams, if_neg (fun hh => hh rfl)]
    rw [hP]
    rw [urlparseParams, if_neg hcond]
    rw [pyJoinparams, if_neg (fun hh => hh rfl)]

/-- The slash-prefixed re-joined path is likewise stable. -/
theorem up_pj_slash (sch p n q f n2 q2 f2 : List Char) :
    pyJoinparams
      (urlparseParams ⟨sch, n2,
        '/' :: pyJoinparams (urlparseParams ⟨sch, n, p, q, f⟩).1
          (urlparseParams ⟨sch, n, p, q, f⟩).2, q2, f2⟩).1
      (urlparseParams ⟨sch, n2,
        '/' :: pyJoinparams (urlparseParams ⟨sch, n, p, q, f⟩).1
          (urlparseParams ⟨sch, n, p, q, f⟩).2, q2, f2⟩).2 =
    '/' :: pyJoinparams (urlparseParams ⟨sch, n, p, q, f⟩).1
      (urlparseParams ⟨sch, n, p, q, f⟩).2 := by
  by_cases hcond : uses_params.contains sch = true ∧ p.contains ';' = true
  · have hP : pyJoinparams (urlparseParams ⟨sch, n, p, q, f⟩).1
        (urlparseParams ⟨sch, n, p, q, f⟩).2 =
        pyJoinparams (pySplitparams p).1 (pySplitparams p).2 := by
      rw [urlparseParams, if_pos hcond]
    rw [hP]
    set P := pyJoinparams (pySplitparams p).1 (pySplitparams p).2 with hPdef
    rw [urlparseParams]
    by_cases hc2 : uses_params.contains sch = true ∧ ('/' :: P).contains ';' = true
    · rw [if_pos hc2]
      have hsemi : ';' ∈ P := by
        have h3 := contains_eq_true_iff.mp hc2.2
        rcases List.mem_cons.mp h3 with h1 | h1
        · exact absurd h1 (by decide)
        · exact h1
      rcases pySplit_master (contains_eq_true_iff.mp hcond.2) with h | h
      · have hx : pyJoinparams (pySplitparams P).1 (pySplitparams P).2 = P := by
          rw [hPdef, h]
          exact h
        exact pj_slash hx hsemi
      · have hx : pyJoinparams (pySplitparams P).1 (pySplitparams P).2 = P := by
          rw [hPdef]
          exact pj_of_lastseg h
        exact pj_slash hx hsemi
    · rw [if_neg hc2]
      rw [pyJoinparams, if_neg (fun hh => hh rfl)]
  · have hP : pyJoinparams (urlparseParams ⟨sch, n, p, q, f⟩).1
        (urlparseParams ⟨sch, n, p, q, f⟩).2 = p := by
      rw [urlparseParams, if_neg hcond]
      rw [pyJoinparams, if_neg (fun hh => hh rfl)]
    rw [hP]
    rw [urlparseParams]
    by_cases hc2 : uses_params.contains sch = true ∧ ('/' :: p).contains ';' = true
    · exfalso
      apply hcond
      refine ⟨hc2.1, ?_⟩
      have h3 := contains_eq_true_iff.mp hc2.2
      rcases List.mem_cons.mp h3 with h1 | h1
      · exact absurd h1 (by decide)
      · exact contains_eq_true_iff.mpr h1
    · rw [if_neg hc2]
      rw [pyJoinparams, if_neg (fun hh => hh rfl)]

/-- A prefix keeps the first two characters away from `//`. -/
theorem take2_of_prefix {P p : List Char} (h : P <+: p)
    (hp : p.take 2 ≠ ['/', '/']) : P.take 2 ≠ ['/', '/'] := by
  intro hP
  obtain ⟨w, hw⟩ := h
  apply hp
  cases P with
  | nil => cases hP
  | cons a P1 =>
    cases P1 with
    | nil => cases hP
    | cons b P2 =>
      simp only [List.take, List.cons.injEq] at hP
      rw [← hw]
      simp [hP.1, hP.2.1]

/-- Appending an optional query part keeps the first two characters away
from `//`. -/
theorem take2_append {P qt : List Char} (hP : P.take 2 ≠ ['/', '/'])
    (hq : qt = [] ∨ ∃ q, qt = '?' :: q) : (P ++ qt).take 2 ≠ ['/', '/'] := by
  intro hh
  apply hP
  rcases hq with h | ⟨q, h⟩ <;> subst h
  · simpa using hh
  · cases P with
    | nil =>
      simp only [List.nil_append, List.take, List.cons.injEq] at hh
      exact absurd hh.1 (by decide)
    | cons a P1 =>
      cases P1 with
      | nil =>
        simp only [List.cons_append, List.nil_append, List.take,
          List.cons.injEq] at hh
        exact absurd hh.2.1 (by decide)
      | cons b P2 =>
        simp only [List.cons_append, List.take, List.cons.injEq] at hh
        obtain ⟨ha, hb, _⟩ := hh
        subst ha
        subst hb
        simp [List.take]

/-- A non-empty prefix pins down the head of the larger list. -/
theorem prefix_head {P l : List Char} {c : Char} {t : List Char}
    (h : P <+: l) (hP : P = c :: t) : ∃ t2, l = c :: t2 := by
  obtain ⟨w, hw⟩ := h
  subst hP
  exact ⟨t ++ w, by rw [← hw]; rfl⟩

/-- `nlDelim` enumerated. -/
theorem nlDelim_cases {c : Char} (h : nlDelim c = true) :
    c = '/' ∨ c = '?' ∨ c = '#' := by
  rw [nlDelim] at h
  simp only [Bool.or_eq_true, beq_iff_eq] at h
  tauto

/-- Everything `urlsplit` returns about a parseable input: the scheme is
lowercase-stable with an alphabetic head and scheme characters only, or it
is empty and the sanitised input has no scheme at all; the netloc has no
delimiters and balanced-bracket containment; path and query contain no
stray `#`/`?`; every character of netloc, path and query comes from the
sanitised input; and with no scheme and no netloc the path either starts
with `/` or is a prefix of the sanitised input. -/
theorem urlsplitL_wf {input : List Char} {r : SplitL}
    (h : urlsplitL input = some r) :
    (r.scheme ≠ [] → (∃ c0 t, r.scheme = c0 :: t ∧ c0.isAlpha = true) ∧
      r.scheme.all isSchemeChar = true ∧ r.scheme.map charLower = r.scheme ∧
      ':' ∉ r.scheme) ∧
    (r.scheme = [] → splitScheme (sanitizeUrl input) = none) ∧
    (∀ c ∈ r.netloc, nlDelim c = false) ∧
    ((r.netloc.contains '[') = (r.netloc.contains ']')) ∧
    '#' ∉ r.path ∧ '?' ∉ r.path ∧ '#' ∉ r.query ∧
    (∀ c ∈ r.netloc, c ∈ sanitizeUrl input) ∧
    (∀ c ∈ r.path, c ∈ sanitizeUrl input) ∧
    (∀ c ∈ r.query, c ∈ sanitizeUrl input) ∧
    (r.scheme = [] → r.netloc = [] → r.path ≠ [] →
      (∃ t, r.path = '/' :: t) ∨ r.path <+: sanitizeUrl input) := by
  obtain ⟨rs, rn, rp, rq, rf⟩ := r
  simp only [urlsplitL] at h
  -- name the post-scheme remainder and dissect the computation
  cases hss : splitScheme (sanitizeUrl input) with
  | some pr =>
    obtain ⟨s0, rest0⟩ := pr
    simp only [hss] at h
    cases hsn : splitNetloc rest0 with
    | none =>
      simp only [hsn] at h
      exact Option.noConfusion h
    | some nl =>
      obtain ⟨n0, rest1⟩ := nl
      simp only [hsn, Option.some.injEq, SplitL.mk.injEq] at h
      obtain ⟨h1, h2, h3, h4, h5⟩ := h
      subst h1
      subst h2
      subst h3
      subst h4
      subst h5
      obtain ⟨hs0, hall0, hpos0, ⟨c0, t0, hl0, halpha0⟩, hrest0⟩ :=
        splitScheme_eq_some hss
      obtain ⟨hnd, hbr, hcases⟩ := splitNetloc_eq_some hsn
      have hrest0sub : ∀ c ∈ rest0, c ∈ sanitizeUrl input := by
        intro c hc
        rw [hrest0] at hc
        exact (List.drop_subset _ _) hc
      have hrest1sub : ∀ c ∈ rest1, c ∈ sanitizeUrl input := by
        rcases hcases with ⟨tl, htl, _, hr1⟩ | ⟨_, _, hr1⟩
        · intro c hc
          rw [hr1] at hc
          apply hrest0sub
          rw [htl]
          exact List.mem_cons_of_mem _ (List.mem_cons_of_mem _
            ((List.dropWhile_suffix _).subset hc))
        · intro c hc
          rw [hr1] at hc
          exact hrest0sub c hc
      have hfq1sub : ∀ c ∈ (splitOnce rest1 '#').1, c ∈ sanitizeUrl input := by
        intro c hc
        exact hrest1sub c ((List.takeWhile_prefix _).subset hc)
      refine ⟨?_, ?_, hnd, hbr, ?_, ?_, ?_, ?_, ?_, ?_, ?_⟩
      · intro _
        refine ⟨?_, ?_, ?_, ?_⟩
        · rw [hs0]
          cases hpre : (sanitizeUrl input).takeWhile (fun c => c != ':') with
          | nil => rw [hpre] at hpos0; cases hpos0
          | cons a pre1 =>
            have ha : a = c0 := by
              rw [hl0, List.takeWhile_cons] at hpre
              by_cases hc0 : (c0 != ':') = true
              · rw [if_pos hc0] at hpre
                exact ((List.cons.injEq .. ▸ hpre).1).symm
              · rw [if_neg hc0] at hpre
                cases hpre
            subst ha
            exact ⟨charLower a, pre1.map charLower, rfl, isAlpha_charLower halpha0⟩
        · rw [hs0]
          rw [List.all_eq_true]
          intro x hx
          obtain ⟨a, ha, hax⟩ := List.mem_map.mp hx
          rw [← hax]
          exact isSchemeChar_charLower (List.all_eq_true.mp hall0 a ha)
        · rw [hs0, List.map_map]
          apply List.map_congr_left
          intro a _
          exact charLower_idem a
        · intro hmem
          rw [hs0] at hmem
          obtain ⟨a, ha, hax⟩ := List.mem_map.mp hmem
          have := isSchemeChar_charLower (List.all_eq_true.mp hall0 a ha)
          rw [hax] at this
          exact absurd this (by decide)
      · intro h0
        rw [hs0] at h0
        have : (sanitizeUrl input).takeWhile (fun c => c != ':') = [] :=
          List.map_eq_nil.mp h0
        rw [this] at hpos0
        cases hpos0
      · intro hmem
        have := mem_takeWhile_pred ((List.takeWhile_prefix _).subset hmem)
        simp at this
      · intro hmem
        have := mem_takeWhile_pred hmem
        simp at this
      · intro hmem
        have hsub : (splitOnce (splitOnce rest1 '#').1 '?').2 ⊆
            (splitOnce rest1 '#').1 := by
          intro c hc
          rw [splitOnce] at hc
          exact (List.dropWhile_suffix _).subset ((List.drop_subset _ _) hc)
        have := mem_takeWhile_pred (hsub hmem)
        simp at this
      · rcases hcases with ⟨tl, htl, hn0, _⟩ | ⟨_, hn0, _⟩
        · intro c hc
          rw [hn0] at hc
          apply hrest0sub
          rw [htl]
          exact List.mem_cons_of_mem _ (List.mem_cons_of_mem _
            ((List.takeWhile_prefix _).subset hc))
        · intro c hc
          rw [hn0] at hc
          cases hc
      · intro c hc
        exact hfq1sub c ((List.takeWhile_prefix _).subset hc)
      · intro c hc
        apply hfq1sub
        rw [splitOnce] at hc
        exact (List.dropWhile_suffix _).subset ((List.drop_subset _ _) hc)
      · intro h0
        rw [hs0] at h0
        have : (sanitizeUrl input).takeWhile (fun c => c != ':') = [] :=
          List.map_eq_nil.mp h0
        rw [this] at hpos0
        cases hpos0
  | none =>
    simp only [hss] at h
    cases hsn : splitNetloc (sanitizeUrl input) with
    | none =>
      simp only [hsn] at h
      exact Option.noConfusion h
    | some nl =>
      obtain ⟨n0, rest1⟩ := nl
      simp only [hsn, Option.some.injEq, SplitL.mk.injEq] at h
      obtain ⟨h1, h2, h3, h4, h5⟩ := h
      subst h1
      subst h2
      subst h3
      subst h4
      subst h5
      obtain ⟨hnd, hbr, hcases⟩ := splitNetloc_eq_some hsn
      have hrest1sub : ∀ c ∈ rest1, c ∈ sanitizeUrl input := by
        rcases hcases with ⟨tl, htl, _, hr1⟩ | ⟨_, _, hr1⟩
        · intro c hc
          rw [hr1] at hc
          rw [htl]
          exact List.mem_cons_of_mem _ (List.mem_cons_of_mem _
            ((List.dropWhile_suffix _).subset hc))
        · intro c hc
          rw [hr1] at hc
          exact hc
      have hfq1sub : ∀ c ∈ (splitOnce rest1 '#').1, c ∈ sanitizeUrl input := by
        intro c hc
        exact hrest1sub c ((List.takeWhile_prefix _).subset hc)
      refine ⟨?_, ?_, hnd, hbr, ?_, ?_, ?_, ?_, ?_, ?_, ?_⟩
      · intro h0
        exact absurd rfl h0
      · intro _
        first
        | rfl
        | exact hss
      · intro hmem
        have := mem_takeWhile_pred ((List.takeWhile_prefix _).subset hmem)
        simp at this
      · intro hmem
        have := mem_takeWhile_pred hmem
        simp at this
      · intro hmem
        have hsub : (splitOnce (splitOnce rest1 '#').1 '?').2 ⊆
            (splitOnce rest1 '#').1 := by
          intro c hc
          rw [splitOnce] at hc
          exact (List.dropWhile_suffix _).subset ((List.drop_subset _ _) hc)
        have := mem_takeWhile_pred (hsub hmem)
        simp at this
      · rcases hcases with ⟨tl, htl, hn0, _⟩ | ⟨_, hn0, _⟩
        · intro c hc
          rw [hn0] at hc
          rw [htl]
          exact List.mem_cons_of_mem _ (List.mem_cons_of_mem _
            ((List.takeWhile_prefix _).subset hc))
        · intro c hc
          rw [hn0] at hc
          cases hc
      · intro c hc
        exact hfq1sub c ((List.takeWhile_prefix _).subset hc)
      · intro c hc
        apply hfq1sub
        rw [splitOnce] at hc
        exact (List.dropWhile_suffix _).subset ((List.drop_subset _ _) hc)
      · intro _ hn0 hpne
        rcases hcases with ⟨tl, htl, hn1, hr1⟩ | ⟨_, _, hr1⟩
        · left
          cases hrest1 : rest1 with
          | nil =>
            exfalso
            apply hpne
            rw [hrest1]
            rfl
          | cons a rtl =>
            have hdel : nlDelim a = true := by
              have := dropWhile_head_false (hr1 ▸ hrest1)
              simpa using this
            rcases nlDelim_cases hdel with hc | hc | hc <;> subst hc
            · refine ⟨((rtl.takeWhile (fun c => c != '#')).takeWhile
                (fun c => c != '?')), ?_⟩
              simp [splitOnce, List.takeWhile_cons]
            · exfalso
              apply hpne
              simp [hrest1, splitOnce, List.takeWhile_cons]
            · exfalso
              apply hpne
              simp [hrest1, splitOnce, List.takeWhile_cons]
        · right
          rw [hr1]
          exact ((List.takeWhile_prefix _).trans (List.takeWhile_prefix _))

/-- `urlunsplit` without a fragment, written as one expression. -/
theorem urlunsplitL_no_frag (sch nl url qu : List Char) :
    urlunsplitL sch nl url qu [] =
      (if sch ≠ [] then sch ++ ':' ::
        (if nl ≠ [] ∨ (sch ≠ [] ∧ uses_netloc.contains sch = true ∧
            url.take 2 ≠ ['/', '/']) then
          ('/' :: '/' :: nl) ++
            (if url ≠ [] ∧ url.take 1 ≠ ['/'] then '/' :: url else url)
        else url)
      else
        (if nl ≠ [] ∨ (sch ≠ [] ∧ uses_netloc.contains sch = true ∧
            url.take 2 ≠ ['/', '/']) then
          ('/' :: '/' :: nl) ++
            (if url ≠ [] ∧ url.take 1 ≠ ['/'] then '/' :: url else url)
        else url)) ++
      (if qu ≠ [] then '?' :: qu else []) := by
  rw [urlunsplitL]
  by_cases hq : qu ≠ []
  · rw [if_pos hq, if_pos hq]
    rw [if_neg (fun hh : ([] : List Char) ≠ [] => hh rfl)]
  · rw [if_neg hq, if_neg hq]
    rw [if_neg (fun hh : ([] : List Char) ≠ [] => hh rfl)]
    rw [List.append_nil]

/-- Re-normalising the output of `norm_url` returns it unchanged, provided
the parse had a netloc or a path not starting in `//`. -/
theorem norm_url_reparse {rs rn rp rq rf : List Char} {u : String}
    (hp : urlsplitL u.data = some ⟨rs, rn, rp, rq, rf⟩)
    (hgood : rn ≠ [] ∨ rp.take 2 ≠ ['/', '/']) :
    norm_url ⟨urlunsplitL rs rn
      (pyJoinparams (urlparseParams ⟨rs, rn, rp, rq, rf⟩).1
        (urlparseParams ⟨rs, rn, rp, rq, rf⟩).2) rq []⟩ =
    some ⟨urlunsplitL rs rn
      (pyJoinparams (urlparseParams ⟨rs, rn, rp, rq, rf⟩).1
        (urlparseParams ⟨rs, rn, rp, rq, rf⟩).2) rq []⟩ := by
  have wf := urlsplitL_wf hp
  dsimp only at wf
  obtain ⟨hwf1, hwf2, hwf3, hwf4, hwf5, hwf6, hwf7, hwf8, hwf9, hwf10, hwf11⟩ := wf
  have hPpre : pyJoinparams (urlparseParams ⟨rs, rn, rp, rq, rf⟩).1
      (urlparseParams ⟨rs, rn, rp, rq, rf⟩).2 <+: rp := up_pj_prefix rs rn rp rq rf
  have hstab := up_pj_stable rs rp rn rq rf rn rq ([] : List Char)
  have hslashstab := up_pj_slash rs rp rn rq rf rn rq ([] : List Char)
  have hstab0 := up_pj_stable rs rp rn rq rf ([] : List Char) rq ([] : List Char)
  set P := pyJoinparams (urlparseParams ⟨rs, rn, rp, rq, rf⟩).1
    (urlparseParams ⟨rs, rn, rp, rq, rf⟩).2 with hPdef
  set qt := (if rq ≠ [] then '?' :: rq else []) with hqtdef
  have hPchars : ∀ c ∈ P, ¬(c = '\t' ∨ c = '\r' ∨ c = '\n') :=
    fun c hc => sanitizeUrl_mem (hwf9 c (hPpre.subset hc))
  have hnchars : ∀ c ∈ rn, ¬(c = '\t' ∨ c = '\r' ∨ c = '\n') :=
    fun c hc => sanitizeUrl_mem (hwf8 c hc)
  have hqchars : ∀ c ∈ rq, ¬(c = '\t' ∨ c = '\r' ∨ c = '\n') :=
    fun c hc => sanitizeUrl_mem (hwf10 c hc)
  have hschars : ∀ c ∈ rs, isSchemeChar c = true := by
    intro c hc
    have hne : rs ≠ [] := by
      intro h0
      rw [h0] at hc
      cases hc
    exact List.all_eq_true.mp (hwf1 hne).2.1 c hc
  have hPnoq : '?' ∉ P := fun hm => hwf6 (hPpre.subset hm)
  have hPnoh : '#' ∉ P := fun hm => hwf5 (hPpre.subset hm)
  have hqtshape : qt = [] ∨ ∃ q2, qt = '?' :: q2 := by
    rw [hqtdef]
    by_cases hq : rq ≠ []
    · exact Or.inr ⟨rq, if_pos hq⟩
    · exact Or.inl (if_neg hq)
  have hqtchars : ∀ c ∈ qt, ¬(c = '\t' ∨ c = '\r' ∨ c = '\n') := by
    intro c hc
    rcases hqtshape with h0 | ⟨q2, h0⟩ <;> rw [h0] at hc
    · cases hc
    · have hq2 : q2 = rq := by
        rw [hqtdef] at h0
        by_cases hq : rq ≠ []
        · rw [if_pos hq] at h0
          exact ((List.cons.injEq .. ▸ h0).2).symm
        · rw [if_neg hq] at h0
          cases h0
      rcases List.mem_cons.mp hc with h2 | h2
      · subst h2
        intro hor
        rcases hor with h | h | h <;> cases h
      · rw [hq2] at h2
        exact hqchars c h2
  have hsplitqs : ∀ X : List Char, '#' ∉ X → '?' ∉ X →
      splitOnce (X ++ qt) '#' = (X ++ qt, []) ∧
      splitOnce (X ++ qt) '?' = (X, rq) := by
    intro X hX1 hX2
    rw [hqtdef]
    by_cases hq : rq ≠ []
    · rw [if_pos hq]
      constructor
      · apply splitOnce_of_not_contains
        intro hm
        rcases List.mem_append.mp hm with h1 | h1
        · exact hX1 h1
        · rcases List.mem_cons.mp h1 with h2 | h2
          · exact absurd h2 (by decide)
          · exact hwf7 h2
      · exact splitOnce_append hX2
    · rw [if_neg hq]
      have hq0 : rq = [] := by
        by_contra h0
        exact hq h0
      rw [List.append_nil]
      refine ⟨splitOnce_of_not_contains hX1, ?_⟩
      rw [hq0]
      exact splitOnce_of_not_contains hX2
  rw [norm_url]
  by_cases hW : rn ≠ [] ∨ (rs ≠ [] ∧ uses_netloc.contains rs = true ∧
      P.take 2 ≠ ['/', '/'])
  · -- the unsplit emits a `//` netloc block
    set P2 := (if P ≠ [] ∧ P.take 1 ≠ ['/'] then '/' :: P else P) with hP2def
    have hP2shape : P2 = [] ∨ ∃ t, P2 = '/' :: t := by
      rw [hP2def]
      by_cases hpp : P ≠ [] ∧ P.take 1 ≠ ['/']
      · exact Or.inr ⟨P, if_pos hpp⟩
      · rw [if_neg hpp]
        by_cases hP0 : P = []
        · exact Or.inl hP0
        · right
          obtain ⟨c, t, hc⟩ := List.exists_cons_of_ne_nil hP0
          have h1 : P.take 1 = ['/'] := by
            by_contra h2
            exact hpp ⟨hP0, h2⟩
          rw [hc] at h1
          have h3 : c = '/' := by
            simpa [List.take] using h1
          exact ⟨t, by rw [hc, h3]⟩
    have hP2chars : ∀ c ∈ P2, ¬(c = '\t' ∨ c = '\r' ∨ c = '\n') := by
      intro c hc
      rw [hP2def] at hc
      by_cases hpp : P ≠ [] ∧ P.take 1 ≠ ['/']
      · rw [if_pos hpp] at hc
        rcases List.mem_cons.mp hc with h2 | h2
        · subst h2
          intro hor
          rcases hor with h | h | h <;> cases h
        · exact hPchars c h2
      · rw [if_neg hpp] at hc
        exact hPchars c hc
    have hP2noq : '?' ∉ P2 := by
      rw [hP2def]
      intro hm
      by_cases hpp : P ≠ [] ∧ P.take 1 ≠ ['/']
      · rw [if_pos hpp] at hm
        rcases List.mem_cons.mp hm with h2 | h2
        · exact absurd h2 (by decide)
        · exact hPnoq h2
      · rw [if_neg hpp] at hm
        exact hPnoq hm
    have hP2noh : '#' ∉ P2 := by
      rw [hP2def]
      intro hm
      by_cases hpp : P ≠ [] ∧ P.take 1 ≠ ['/']
      · rw [if_pos hpp] at hm
        rcases List.mem_cons.mp hm with h2 | h2
        · exact absurd h2 (by decide)
        · exact hPnoh h2
      · rw [if_neg hpp] at hm
        exact hPnoh hm
    have hrest : P2 ++ qt = [] ∨ ∃ c t, P2 ++ qt = c :: t ∧ nlDelim c = true := by
      rcases hP2shape with h0 | ⟨t, h0⟩
      · rw [h0, List.nil_append]
        rcases hqtshape with h1 | ⟨q2, h1⟩
        · exact Or.inl h1
        · exact Or.inr ⟨'?', q2, h1, by decide⟩
      · exact Or.inr ⟨'/', t ++ qt, by rw [h0]; rfl, by decide⟩
    have hnet : splitNetloc ('/' :: '/' :: (rn ++ (P2 ++ qt))) =
        some (rn, P2 ++ qt) := splitNetloc_reassemble hwf3 hwf4 hrest
    have hfs := hsplitqs P2 hP2noh hP2noq
    have hWchars : ∀ c ∈ '/' :: '/' :: (rn ++ (P2 ++ qt)),
        ¬(c = '\t' ∨ c = '\r' ∨ c = '\n') := by
      intro c hc
      rcases List.mem_cons.mp hc with h1 | h1
      · subst h1
        intro hor
        rcases hor with h | h | h <;> cases h
      rcases List.mem_cons.mp h1 with h2 | h2
      · subst h2
        intro hor
        rcases hor with h | h | h <;> cases h
      rcases List.mem_append.mp h2 with h3 | h3
      · exact hnchars c h3
      rcases List.mem_append.mp h3 with h4 | h4
      · exact hP2chars c h4
      · exact hqtchars c h4
    have hpj2 : pyJoinparams (urlparseParams ⟨rs, rn, P2, rq, []⟩).1
        (urlparseParams ⟨rs, rn, P2, rq, []⟩).2 = P2 := by
      rw [hP2def]
      by_cases hpp : P ≠ [] ∧ P.take 1 ≠ ['/']
      · rw [if_pos hpp]
        exact hslashstab
      · rw [if_neg hpp]
        exact hstab
    have hW2 : rn ≠ [] ∨ (rs ≠ [] ∧ uses_netloc.contains rs = true ∧
        P2.take 2 ≠ ['/', '/']) := by
      rcases hW with h | ⟨h1, h2, h3⟩
      · exact Or.inl h
      · refine Or.inr ⟨h1, h2, ?_⟩
        rw [hP2def]
        by_cases hpp : P ≠ [] ∧ P.take 1 ≠ ['/']
        · rw [if_pos hpp]
          intro hh
          apply hpp.2
          have hh2 : '/' :: P.take 1 = ['/', '/'] := hh
          exact (List.cons.injEq .. ▸ hh2).2
        · rw [if_neg hpp]
          exact h3
    have hif2 : (if P2 ≠ [] ∧ P2.take 1 ≠ ['/'] then '/' :: P2 else P2) = P2 := by
      rcases hP2shape with h0 | ⟨t, h0⟩
      · rw [if_neg]
        intro hcond
        exact hcond.1 h0
      · rw [if_neg]
        intro hcond
        apply hcond.2
        rw [h0]
        rfl
    have hval : urlunsplitL rs rn P2 rq [] = urlunsplitL rs rn P rq [] := by
      rw [urlunsplitL_no_frag, urlunsplitL_no_frag]
      rw [if_pos hW2, if_pos hW, hif2, ← hP2def, ← hqtdef]
    by_cases hs : rs ≠ []
    · have hLdata : urlunsplitL rs rn P rq [] =
          rs ++ ':' :: ('/' :: '/' :: (rn ++ (P2 ++ qt))) := by
        rw [urlunsplitL_no_frag, if_pos hW, if_pos hs, ← hP2def, ← hqtdef]
        simp [List.append_assoc]
      obtain ⟨⟨c0, t0, hc0, halpha⟩, hall, hlow, hnc⟩ := hwf1 hs
      have hsanit : sanitizeUrl (rs ++ ':' :: ('/' :: '/' :: (rn ++ (P2 ++ qt)))) =
          rs ++ ':' :: ('/' :: '/' :: (rn ++ (P2 ++ qt))) := by
        apply sanitizeUrl_eq_self
        · right
          refine ⟨c0, t0 ++ ':' :: ('/' :: '/' :: (rn ++ (P2 ++ qt))), ?_, ?_⟩
          · rw [hc0]
            rfl
          · rcases isAlpha_iff.mp halpha with h | h <;> omega
        · intro c hc
          rcases List.mem_append.mp hc with h1 | h1
          · have := isSchemeChar_facts (hschars c h1)
            intro hor
            rcases hor with h | h | h
            · exact this.2.2.1 h
            · exact this.2.2.2.1 h
            · exact this.2.2.2.2.1 h
          rcases List.mem_cons.mp h1 with h2 | h2
          · subst h2
            intro hor
            rcases hor with h | h | h <;> cases h
          · exact hWchars c h2
      have hscheme : splitScheme (rs ++ ':' :: ('/' :: '/' :: (rn ++ (P2 ++ qt)))) =
          some (rs, '/' :: '/' :: (rn ++ (P2 ++ qt))) :=
        splitScheme_reassemble ⟨c0, t0, hc0, halpha⟩ hall hlow hnc
      have hsplitv : urlsplitL (rs ++ ':' :: ('/' :: '/' :: (rn ++ (P2 ++ qt)))) =
          some ⟨rs, rn, P2, rq, []⟩ := by
        simp only [urlsplitL]
        rw [hsanit]
        simp only [hscheme]
        simp only [hnet]
        rw [hfs.1]
        simp only [hfs.2]
      rw [hLdata]
      have hdata : (⟨rs ++ ':' :: ('/' :: '/' :: (rn ++ (P2 ++ qt)))⟩ :
          String).data = rs ++ ':' :: ('/' :: '/' :: (rn ++ (P2 ++ qt))) := rfl
      rw [hdata, hsplitv]
      simp only [Option.map_some']
      rw [show (⟨urlunsplitL (⟨rs, rn, P2, rq, []⟩ : SplitL).scheme
          (⟨rs, rn, P2, rq, []⟩ : SplitL).netloc
          (pyJoinparams (urlparseParams ⟨rs, rn, P2, rq, []⟩).1
            (urlparseParams ⟨rs, rn, P2, rq, []⟩).2)
          (⟨rs, rn, P2, rq, []⟩ : SplitL).query []⟩ : String) =
        (⟨urlunsplitL rs rn P2 rq []⟩ : String) from by rw [hpj2]]
      rw [hval, hLdata]
    · have hs0 : rs = [] := by
        by_contra h0
        exact hs h0
      have hWl : rn ≠ [] := by
        rcases hW with h | ⟨h1, _, _⟩
        · exact h
        · exact absurd h1 hs
      have hLdata : urlunsplitL rs rn P rq [] =
          '/' :: '/' :: (rn ++ (P2 ++ qt)) := by
        rw [urlunsplitL_no_frag, if_pos hW, if_neg hs, ← hP2def, ← hqtdef]
        simp [List.append_assoc]
      have hsanit : sanitizeUrl ('/' :: '/' :: (rn ++ (P2 ++ qt))) =
          '/' :: '/' :: (rn ++ (P2 ++ qt)) := by
        apply sanitizeUrl_eq_self
        · right
          exact ⟨'/', '/' :: (rn ++ (P2 ++ qt)), rfl, by decide⟩
        · exact hWchars
      have hscheme : splitScheme ('/' :: '/' :: (rn ++ (P2 ++ qt))) = none := by
        apply splitScheme_none_head
        intro c0a ta hta
        have : c0a = '/' := (List.cons.injEq .. ▸ hta).1.symm
        rw [this]
        decide
      have hsplitv : urlsplitL ('/' :: '/' :: (rn ++ (P2 ++ qt))) =
          some ⟨rs, rn, P2, rq, []⟩ := by
        simp only [urlsplitL]
        rw [hsanit]
        simp only [hscheme]
        simp only [hnet]
        rw [hfs.1]
        simp only [hfs.2]
        rw [hs0]
      rw [hLdata]
      have hdata : (⟨'/' :: '/' :: (rn ++ (P2 ++ qt))⟩ : String).data =
          '/' :: '/' :: (rn ++ (P2 ++ qt)) := rfl
      rw [hdata, hsplitv]
      simp only [Option.map_some']
      rw [show (⟨urlunsplitL (⟨rs, rn, P2, rq, []⟩ : SplitL).scheme
          (⟨rs, rn, P2, rq, []⟩ : SplitL).netloc
          (pyJoinparams (urlparseParams ⟨rs, rn, P2, rq, []⟩).1
            (urlparseParams ⟨rs, rn, P2, rq, []⟩).2)
          (⟨rs, rn, P2, rq, []⟩ : SplitL).query []⟩ : String) =
        (⟨urlunsplitL rs rn P2 rq []⟩ : String) from by rw [hpj2]]
      rw [hval, hLdata]
  · -- no netloc block is emitted
    have hn0 : rn = [] := by
      by_contra h0
      exact hW (Or.inl h0)
    have hrp2 : rp.take 2 ≠ ['/', '/'] := by
      rcases hgood with h | h
      · exact absurd h (by rw [hn0]; exact fun hh => hh rfl)
      · exact h
    have hPtake2 : P.take 2 ≠ ['/', '/'] := take2_of_prefix hPpre hrp2
    have htake2 : (P ++ qt).take 2 ≠ ['/', '/'] := take2_append hPtake2 hqtshape
    have hnet : splitNetloc (P ++ qt) = some ([], P ++ qt) :=
      splitNetloc_no_slashslash htake2
    have hfs := hsplitqs P hPnoh hPnoq
    have hpj0 : pyJoinparams (urlparseParams ⟨rs, [], P, rq, []⟩).1
        (urlparseParams ⟨rs, [], P, rq, []⟩).2 = P := hstab0
    have hW0 : ¬ (([] : List Char) ≠ [] ∨ (rs ≠ [] ∧
        uses_netloc.contains rs = true ∧ P.take 2 ≠ ['/', '/'])) := by
      intro hcond
      rcases hcond with h | ⟨h1, h2, h3⟩
      · exact h rfl
      · exact hW (Or.inr ⟨h1, h2, h3⟩)
    have hPqchars : ∀ c ∈ P ++ qt, ¬(c = '\t' ∨ c = '\r' ∨ c = '\n') := by
      intro c hc
      rcases List.mem_append.mp hc with h1 | h1
      · exact hPchars c h1
      · exact hqtchars c h1
    by_cases hs : rs ≠ []
    · have huses : ¬ (uses_netloc.contains rs = true) := by
        intro hu
        exact hW (Or.inr ⟨hs, hu, hPtake2⟩)
      have hLdata : urlunsplitL rs rn P rq [] = rs ++ ':' :: (P ++ qt) := by
        rw [urlunsplitL_no_frag, if_neg hW, if_pos hs, ← hqtdef]
        simp [List.append_assoc]
      obtain ⟨⟨c0, t0, hc0, halpha⟩, hall, hlow, hnc⟩ := hwf1 hs
      have hsanit : sanitizeUrl (rs ++ ':' :: (P ++ qt)) =
          rs ++ ':' :: (P ++ qt) := by
        apply sanitizeUrl_eq_self
        · right
          refine ⟨c0, t0 ++ ':' :: (P ++ qt), ?_, ?_⟩
          · rw [hc0]
            rfl
          · rcases isAlpha_iff.mp halpha with h | h <;> omega
        · intro c hc
          rcases List.mem_append.mp hc with h1 | h1
          · have := isSchemeChar_facts (hschars c h1)
            intro hor
            rcases hor with h | h | h
            · exact this.2.2.1 h
            · exact this.2.2.2.1 h
            · exact this.2.2.2.2.1 h
          rcases List.mem_cons.mp h1 with h2 | h2
          · subst h2
            intro hor
            rcases hor with h | h | h <;> cases h
          · exact hPqchars c h2
      have hscheme : splitScheme (rs ++ ':' :: (P ++ qt)) =
          some (rs, P ++ qt) :=
        splitScheme_reassemble ⟨c0, t0, hc0, halpha⟩ hall hlow hnc
      have hsplitv : urlsplitL (rs ++ ':' :: (P ++ qt)) =
          some ⟨rs, [], P, rq, []⟩ := by
        simp only [urlsplitL]
        rw [hsanit]
        simp only [hscheme]
        simp only [hnet]
        rw [hfs.1]
        simp only [hfs.2]
      have hval : urlunsplitL rs ([] : List Char) P rq [] =
          urlunsplitL rs rn P rq [] := by
        rw [urlunsplitL_no_frag, urlunsplitL_no_frag]
        rw [if_neg hW0, if_neg hW, ← hqtdef]
      rw [hLdata]
      have hdata : (⟨rs ++ ':' :: (P ++ qt)⟩ : String).data =
          rs ++ ':' :: (P ++ qt) := rfl
      rw [hdata, hsplitv]
      simp only [Option.map_some']
      rw [show (⟨urlunsplitL (⟨rs, [], P, rq, []⟩ : SplitL).scheme
          (⟨rs, [], P, rq, []⟩ : SplitL).netloc
          (pyJoinparams (urlparseParams ⟨rs, [], P, rq, []⟩).1
            (urlparseParams ⟨rs, [], P, rq, []⟩).2)
          (⟨rs, [], P, rq, []⟩ : SplitL).query []⟩ : String) =
        (⟨urlunsplitL rs ([] : List Char) P rq []⟩ : String) from by rw [hpj0]]
      rw [hval, hLdata]
    · have hs0 : rs = [] := by
        by_contra h0
        exact hs h0
      have hLdata : urlunsplitL rs rn P rq [] = P ++ qt := by
        rw [urlunsplitL_no_frag, if_neg hW, if_neg hs, ← hqtdef]
      have hsanit : sanitizeUrl (P ++ qt) = P ++ qt := by
        apply sanitizeUrl_eq_self
        · by_cases hP0 : P = []
          · rcases hqtshape with h0 | ⟨q2, h0⟩
            · left
              rw [hP0, h0]
              rfl
            · right
              rw [hP0, h0]
              exact ⟨'?', q2, rfl, by decide⟩
          · obtain ⟨c, t, hc⟩ := List.exists_cons_of_ne_nil hP0
            right
            refine ⟨c, t ++ qt, by rw [hc]; rfl, ?_⟩
            have hcrp : c ∈ rp := hPpre.subset (by rw [hc]; exact List.mem_cons_self _ _)
            have hrpne : rp ≠ [] := by
              intro h0
              rw [h0] at hcrp
              cases hcrp
            rcases hwf11 hs0 hn0 hrpne with ⟨t2, ht2⟩ | hpre2
            · have : c = '/' := by
                obtain ⟨w, hw⟩ := hPpre
                rw [hc, ht2] at hw
                exact (List.cons.injEq .. ▸ hw).1
              rw [this]
              decide
            · obtain ⟨t3, ht3⟩ := prefix_head (hPpre.trans hpre2) hc
              exact sanitizeUrl_head ht3
        · exact hPqchars
      have hscheme : splitScheme (P ++ qt) = none := by
        by_cases hP0 : P = []
        · rcases hqtshape with h0 | ⟨q2, h0⟩
          · rw [hP0, h0]
            rfl
          · rw [hP0, h0, List.nil_append]
            apply splitScheme_none_head
            intro c0a ta hta
            have : c0a = '?' := (List.cons.injEq .. ▸ hta).1.symm
            rw [this]
            decide
        · have hrpne : rp ≠ [] := by
            intro h0
            have := hPpre
            rw [h0] at this
            exact hP0 (List.prefix_nil.mp this)
          rcases hwf11 hs0 hn0 hrpne with ⟨t2, ht2⟩ | hpre2
          · obtain ⟨c, t, hc⟩ := List.exists_cons_of_ne_nil hP0
            have hcslash : c = '/' := by
              obtain ⟨w, hw⟩ := hPpre
              rw [hc, ht2] at hw
              exact (List.cons.injEq .. ▸ hw).1
            apply splitScheme_none_head
            intro c0a ta hta
            rw [hc, hcslash] at hta
            have : c0a = '/' := (List.cons.injEq .. ▸ hta).1.symm
            rw [this]
            decide
          · exact splitScheme_none_prefix (hPpre.trans hpre2) hP0
              (hwf2 hs0) hqtshape
      have hsplitv : urlsplitL (P ++ qt) = some ⟨rs, [], P, rq, []⟩ := by
        simp only [urlsplitL]
        rw [hsanit]
        simp only [hscheme]
        simp only [hnet]
        rw [hfs.1]
        simp only [hfs.2]
        rw [hs0]
      have hW0b : ¬ (([] : List Char) ≠ [] ∨ (rs ≠ [] ∧
          uses_netloc.contains rs = true ∧ P.take 2 ≠ ['/', '/'])) := hW0
      have hval : urlunsplitL rs ([] : List Char) P rq [] =
          urlunsplitL rs rn P rq [] := by
        rw [urlunsplitL_no_frag, urlunsplitL_no_frag]
        rw [if_neg hW0b, if_neg hW, ← hqtdef]
      rw [hLdata]
      have hdata : (⟨P ++ qt⟩ : String).data = P ++ qt := rfl
      rw [hdata, hsplitv]
      simp only [Option.map_some']
      rw [show (⟨urlunsplitL (⟨rs, [], P, rq, []⟩ : SplitL).scheme
          (⟨rs, [], P, rq, []⟩ : SplitL).netloc
          (pyJoinparams (urlparseParams ⟨rs, [], P, rq, []⟩).1
            (urlparseParams ⟨rs, [], P, rq, []⟩).2)
          (⟨rs, [], P, rq, []⟩ : SplitL).query []⟩ : String) =
        (⟨urlunsplitL rs ([] : List Char) P rq []⟩ : String) from by rw [hpj0]]
      rw [hval, hLdata]

/-- C10 counterexample: `norm_url` is not idempotent on every parseable
URL — `"////"` parses with empty netloc and path `"//"`, normalises to
`"//"`, and normalising that gives `""`. -/
theorem norm_url_not_idempotent :
    norm_url "////" = some "//" ∧ norm_url "//" = some "" ∧
    ("//" : String) ≠ "" := by
  refine ⟨?_, ?_, ?_⟩ <;> decide

/-- C10 (amended): `norm_url` is idempotent on every parseable URL whose
parse has a non-empty netloc or a path that does not start with `//`
(excluding exactly the degenerate `scheme:////path`-style inputs of the
counterexample); and two URLs whose parses differ at most in the fragment
normalise to the same string. -/
theorem norm_url_spec :
    (∀ (u v : String) (r : SplitL), urlsplitL u.data = some r →
        (r.netloc ≠ [] ∨ r.path.take 2 ≠ ['/', '/']) →
        norm_url u = some v → norm_url v = some v) ∧
    (∀ (u1 u2 : String) (r1 r2 : SplitL), urlsplitL u1.data = some r1 →
        urlsplitL u2.data = some r2 → r1.scheme = r2.scheme →
        r1.netloc = r2.netloc → r1.path = r2.path → r1.query = r2.query →
        norm_url u1 = norm_url u2) := by
  constructor
  · intro u v r hp hgood hnorm
    obtain ⟨rs, rn, rp, rq, rf⟩ := r
    dsimp only at hgood
    rw [norm_url, hp] at hnorm
    simp only [Option.map_some'] at hnorm
    have hv : v = ⟨urlunsplitL rs rn
        (pyJoinparams (urlparseParams ⟨rs, rn, rp, rq, rf⟩).1
          (urlparseParams ⟨rs, rn, rp, rq, rf⟩).2) rq []⟩ :=
      (Option.some.inj hnorm).symm
    rw [hv]
    exact norm_url_reparse hp hgood
  · intro u1 u2 r1 r2 h1 h2 hs hn hp hq
    obtain ⟨s1, n1, p1, q1, f1⟩ := r1
    obtain ⟨s2, n2, p2, q2, f2⟩ := r2
    dsimp only at hs hn hp hq
    subst hs
    subst hn
    subst hp
    subst hq
    rw [norm_url, h1, norm_url, h2]
    rfl

theorem norm_url_spec_witness :
    norm_url "http://h/p" = some "http://h/p" ∧
    norm_url "http://h/p#f" = norm_url "http://h/p#g" := by
  constructor
  · exact norm_url_spec.1 "http://h/p#f" "http://h/p"
      ⟨"http".data, "h".data, "/p".data, [], "f".data⟩
      (by decide) (by decide) (by decide)
  · exact norm_url_spec.2 "http://h/p#f" "http://h/p#g"
      ⟨"http".data, "h".data, "/p".data, [], "f".data⟩
      ⟨"http".data, "h".data, "/p".data, [], "g".data⟩
      (by decide) (by decide) rfl rfl rfl rfl

end Scraper
